import Mathlib

/-!
Verification of the `zorder` crate: the bit-interleaving / deinterleaving
engine (Morton / Z-order encoding).  All machine integers are embedded as
`Nat` with explicit reductions modulo `2 ^ B` wherever the Rust code can drop
high bits (left shifts and narrowing casts).  Each definition mirrors one
item of the Rust source; theorems relate them to bit-level specifications.
-/

namespace Zorder

/-! ### Generic boolean / bit helpers -/

theorem bool_eq_of_iff {a b : Bool} (h : a = true ↔ b = true) : a = b := by
  cases a <;> cases b <;> simp_all

theorem exists_lt_succ_iff (P : Nat → Prop) (n : Nat) :
    (∃ i, i < n + 1 ∧ P i) ↔ (∃ i, i < n ∧ P i) ∨ P n := by
  constructor
  · rintro ⟨i, hi, hp⟩
    rcases Nat.lt_succ_iff_lt_or_eq.mp hi with h | h
    · exact Or.inl ⟨i, h, hp⟩
    · subst h; exact Or.inr hp
  · rintro (⟨i, hi, hp⟩ | hp)
    · exact ⟨i, Nat.lt_succ_of_lt hi, hp⟩
    · exact ⟨n, Nat.lt_succ_self n, hp⟩

/-- Bits of an iterated bitwise-or over `List.range`. -/
theorem testBit_foldl_or (g : Nat → Nat) (n k : Nat) :
    ((List.range n).foldl (fun acc i => acc ||| g i) 0).testBit k = true ↔
      ∃ i, i < n ∧ (g i).testBit k = true := by
  induction n with
  | zero => simp
  | succ n ih =>
    rw [List.range_succ, List.foldl_append]
    simp only [List.foldl_cons, List.foldl_nil, Nat.testBit_or, Bool.or_eq_true, ih]
    rw [exists_lt_succ_iff (fun i => (g i).testBit k = true) n]

/-- A bitwise-or of two values below `2 ^ B` stays below `2 ^ B`. -/
theorem or_lt_two_pow {a b B : Nat} (ha : a < 2 ^ B) (hb : b < 2 ^ B) :
    a ||| b < 2 ^ B := Nat.or_lt_two_pow ha hb

theorem testBit_false_of_lt {x i : Nat} {W : Nat} (hx : x < 2 ^ W) (hi : W ≤ i) :
    x.testBit i = false :=
  Nat.testBit_lt_two_pow (lt_of_lt_of_le hx (Nat.pow_le_pow_right (by norm_num) hi))

/-! ### `src/mask.rs` and `src/interleave.rs`: masks and shifts

`mask` is `fn mask<T>(bits: u32) -> T` from `src/mask.rs:297`
(`max_value().unsigned_shr(BITS - bits)`), `interleave_shift` is
`const fn interleave_shift(i: u32, n: u32)` from `src/interleave.rs:90`,
and `interleave_mask` is `fn interleave_mask<T>(dim: u32, bits: u32)` from
`src/interleave.rs:95` / `src/mask.rs:302` (identical bodies); `B` stands for
`<T as BitCount>::BITS`. -/

def mask (B bits : Nat) : Nat := (2 ^ B - 1) >>> (B - bits)

def interleave_shift (i n : Nat) : Nat := (1 <<< i) * (n - 1)

def interleave_mask (B dim bits : Nat) : Nat :=
  (List.range (((B + dim - 1) / dim + bits - 1) / bits)).foldl
    (fun acc i => acc ||| ((mask B bits <<< (i * dim * bits)) % 2 ^ B)) 0

theorem interleave_shift_eq (i n : Nat) : interleave_shift i n = (n - 1) * 2 ^ i := by
  unfold interleave_shift
  rw [Nat.shiftLeft_eq, Nat.one_mul, Nat.mul_comm]

theorem mask_eq (B bits : Nat) (hbits : bits ≤ B) : mask B bits = 2 ^ bits - 1 := by
  apply Nat.eq_of_testBit_eq
  intro k
  unfold mask
  rw [Nat.testBit_shiftRight, Nat.testBit_two_pow_sub_one, Nat.testBit_two_pow_sub_one,
    decide_eq_decide]
  omega

/-- Nested ceiling divisions collapse: `⌈⌈B/d⌉/b⌉ = ⌈B/(d·b)⌉`. -/
theorem ceil_div_ceil_div (B d b : Nat) (hd : 0 < d) (hb : 0 < b) (hB : 0 < B) :
    ((B + d - 1) / d + b - 1) / b = (B + d * b - 1) / (d * b) := by
  have hdb : 0 < d * b := Nat.mul_pos hd hb
  have h1 : (B + d - 1) / d = (B - 1) / d + 1 := by
    rw [show B + d - 1 = (B - 1) + d by omega, Nat.add_div_right _ hd]
  have h2 : (B + d * b - 1) / (d * b) = (B - 1) / (d * b) + 1 := by
    rw [show B + d * b - 1 = (B - 1) + d * b by omega, Nat.add_div_right _ hdb]
  have h3 : (B - 1) / d + 1 + b - 1 = (B - 1) / d + b := by
    generalize (B - 1) / d = f
    omega
  rw [h1, h2, h3, Nat.add_div_right _ hb, Nat.div_div_eq_div_mul]

/-- Every shift performed inside `interleave_mask` stays strictly below the
type width `B`, so `unsigned_shl` never overflows there. -/
theorem interleave_mask_shift_lt (B dim bits i : Nat) (hb : 0 < bits) (hbB : bits ≤ B)
    (hd : 0 < dim) (hi : i < ((B + dim - 1) / dim + bits - 1) / bits) :
    i * dim * bits < B := by
  have hB : 0 < B := lt_of_lt_of_le hb hbB
  have hdb : 0 < dim * bits := Nat.mul_pos hd hb
  rw [ceil_div_ceil_div B dim bits hd hb hB] at hi
  have h2 : (B + dim * bits - 1) / (dim * bits) = (B - 1) / (dim * bits) + 1 := by
    rw [show B + dim * bits - 1 = (B - 1) + dim * bits by omega, Nat.add_div_right _ hdb]
  rw [h2] at hi
  have hile : i ≤ (B - 1) / (dim * bits) := by omega
  have := Nat.mul_le_mul_right (dim * bits) hile
  have hfloor : (B - 1) / (dim * bits) * (dim * bits) ≤ B - 1 := Nat.div_mul_le_self _ _
  have : i * (dim * bits) ≤ B - 1 := le_trans this hfloor
  calc i * dim * bits = i * (dim * bits) := by rw [Nat.mul_assoc]
    _ ≤ B - 1 := this
    _ < B := by omega

/-- Bit-level shape of `interleave_mask`: within the type width, bit `k` is
set exactly when `k mod (dim·bits) < bits`. -/
theorem interleave_mask_testBit (B dim bits k : Nat) (hb : 0 < bits) (hbB : bits ≤ B)
    (hd : 0 < dim) :
    ((interleave_mask B dim bits).testBit k = true ↔
      (k < B ∧ k % (dim * bits) < bits)) := by
  have hB : 0 < B := lt_of_lt_of_le hb hbB
  have hdb : 0 < dim * bits := Nat.mul_pos hd hb
  have hble : bits ≤ dim * bits := Nat.le_mul_of_pos_left bits hd
  unfold interleave_mask
  rw [testBit_foldl_or]
  have hcdb : ((B + dim - 1) / dim + bits - 1) / bits = (B - 1) / (dim * bits) + 1 := by
    rw [ceil_div_ceil_div B dim bits hd hb hB,
      show B + dim * bits - 1 = (B - 1) + dim * bits by omega, Nat.add_div_right _ hdb]
  constructor
  · rintro ⟨i, hi, hbit⟩
    rw [Nat.testBit_mod_two_pow, Bool.and_eq_true, decide_eq_true_eq] at hbit
    obtain ⟨hkB, hbit⟩ := hbit
    rw [Nat.testBit_shiftLeft, Bool.and_eq_true, decide_eq_true_eq] at hbit
    obtain ⟨hge, hbit⟩ := hbit
    rw [mask_eq B bits hbB, Nat.testBit_two_pow_sub_one, decide_eq_true_eq] at hbit
    refine ⟨hkB, ?_⟩
    have hk : k = (k - i * dim * bits) + i * (dim * bits) := by
      rw [← Nat.mul_assoc]; omega
    rw [hk, Nat.add_mul_mod_self_right, Nat.mod_eq_of_lt (by omega)]
    omega
  · rintro ⟨hkB, hmod⟩
    refine ⟨k / (dim * bits), ?_, ?_⟩
    · rw [hcdb]
      exact Nat.lt_succ_of_le (Nat.div_le_div_right (by omega))
    · rw [Nat.testBit_mod_two_pow, Bool.and_eq_true, decide_eq_true_eq]
      refine ⟨hkB, ?_⟩
      rw [Nat.testBit_shiftLeft, Bool.and_eq_true, decide_eq_true_eq]
      have hdm : dim * bits * (k / (dim * bits)) + k % (dim * bits) = k :=
        Nat.div_add_mod k (dim * bits)
      have hassoc : k / (dim * bits) * dim * bits = dim * bits * (k / (dim * bits)) := by
        rw [Nat.mul_assoc, Nat.mul_comm]
      rw [hassoc, mask_eq B bits hbB, Nat.testBit_two_pow_sub_one]
      constructor
      · omega
      · rw [decide_eq_true_eq]
        omega

/-! ### Chunked spreading: loop invariant states of the doubling algorithms

`spreadChunks N c Q t` lays out the low `Q·c` bits of `t` in `Q` chunks of `c`
bits, chunk `q` placed at bit offset `q·c·N`.  The interleave loop moves from
chunk size `2^L` down to `1`; the deinterleave loop moves back up. -/

def spreadChunks (N c : Nat) : Nat → Nat → Nat
  | 0, _ => 0
  | Q + 1, t => (t % 2 ^ c) ||| (spreadChunks N c Q (t >>> c) <<< (c * N))

theorem testBit_one (m : Nat) : (1 : Nat).testBit m = decide (m = 0) := by
  cases m with
  | zero => rfl
  | succ m =>
    rw [Nat.testBit_succ]
    norm_num

theorem spreadChunks_testBit (N c : Nat) :
    ∀ (Q t k : Nat), ((spreadChunks N c Q t).testBit k = true ↔
      ∃ q r, r < c ∧ q < Q ∧ k = q * (c * N) + r ∧ t.testBit (q * c + r) = true) := by
  intro Q
  induction Q with
  | zero =>
    intro t k
    simp [spreadChunks]
  | succ Q ih =>
    intro t k
    rw [spreadChunks, Nat.testBit_or, Bool.or_eq_true, Nat.testBit_mod_two_pow,
      Nat.testBit_shiftLeft, Bool.and_eq_true, Bool.and_eq_true, decide_eq_true_eq,
      decide_eq_true_eq, ih]
    simp only [Nat.testBit_shiftRight]
    constructor
    · rintro (⟨hk, ht⟩ | ⟨hge, q, r, hr, hq, hkeq, ht⟩)
      · exact ⟨0, k, hk, Nat.succ_pos Q, by omega, by simpa using ht⟩
      · refine ⟨q + 1, r, hr, by omega, ?_, ?_⟩
        · have hsm : (q + 1) * (c * N) = q * (c * N) + c * N := by ring
          omega
        · have hix : (q + 1) * c + r = c + (q * c + r) := by
            have hsm : (q + 1) * c = q * c + c := by ring
            omega
          rwa [hix]
    · rintro ⟨q, r, hr, hq, hkeq, ht⟩
      cases q with
      | zero =>
        left
        constructor
        · omega
        · have hix : k = r := by omega
          have hix2 : (0 : Nat) * c + r = r := by omega
          rw [hix2] at ht
          rwa [hix]
      | succ q =>
        right
        have hsm : (q + 1) * (c * N) = q * (c * N) + c * N := by ring
        refine ⟨by omega, q, r, hr, by omega, by omega, ?_⟩
        have hix : (q + 1) * c + r = c + (q * c + r) := by
          have hsm2 : (q + 1) * c = q * c + c := by ring
          omega
        rwa [hix] at ht

theorem spreadChunks_one (N c t : Nat) : spreadChunks N c 1 t = t % 2 ^ c := by
  show (t % 2 ^ c) ||| (spreadChunks N c 0 (t >>> c) <<< (c * N)) = t % 2 ^ c
  show (t % 2 ^ c) ||| ((0 : Nat) <<< (c * N)) = t % 2 ^ c
  rw [Nat.zero_shiftLeft, Nat.or_zero]

/-- The low chunk of a chunked spread is the low chunk of the source. -/
theorem spreadChunks_mod (N c Q t : Nat) (hc : 0 < c) (hN : 0 < N) (hQ : 0 < Q) :
    spreadChunks N c Q t % 2 ^ c = t % 2 ^ c := by
  apply Nat.eq_of_testBit_eq
  intro k
  apply bool_eq_of_iff
  simp only [Nat.testBit_mod_two_pow, Bool.and_eq_true, decide_eq_true_eq]
  rw [spreadChunks_testBit]
  constructor
  · rintro ⟨hk, q, r, hr, hq, hkeq, ht⟩
    have hq0 : q = 0 := by
      by_contra hq0
      have h1 : c * N ≤ q * (c * N) := Nat.le_mul_of_pos_left (c * N) (by omega)
      have h2 : c ≤ c * N := Nat.le_mul_of_pos_right c hN
      omega
    subst hq0
    refine ⟨hk, ?_⟩
    have : (0 : Nat) * c + r = r := by omega
    rw [this] at ht
    have : k = r := by omega
    rwa [this]
  · rintro ⟨hk, ht⟩
    exact ⟨hk, 0, k, by omega, hQ, by omega, by simpa using ht⟩

/-- `gatherBits N lsb v w` collects `v`'s bits `lsb, lsb+N, lsb+2N, …` into a
contiguous `w`-bit value: the intended meaning of deinterleaving at `lsb`. -/
def gatherBits (N lsb v : Nat) : Nat → Nat
  | 0 => 0
  | w + 1 => gatherBits N lsb v w ||| ((if v.testBit (lsb + w * N) then 1 else 0) <<< w)

theorem gatherBits_testBit (N lsb v : Nat) :
    ∀ w j, ((gatherBits N lsb v w).testBit j = true ↔
      (j < w ∧ v.testBit (lsb + j * N) = true)) := by
  intro w
  induction w with
  | zero =>
    intro j
    simp [gatherBits]
  | succ w ih =>
    intro j
    rw [gatherBits, Nat.testBit_or, Bool.or_eq_true, ih, Nat.testBit_shiftLeft,
      Bool.and_eq_true, decide_eq_true_eq]
    constructor
    · rintro (⟨hj, ht⟩ | ⟨hge, ht⟩)
      · exact ⟨by omega, ht⟩
      · by_cases hb : v.testBit (lsb + w * N) = true
        · rw [if_pos hb, testBit_one, decide_eq_true_eq] at ht
          have hj : j = w := by omega
          subst hj
          exact ⟨by omega, hb⟩
        · rw [if_neg hb] at ht
          rw [Nat.zero_testBit] at ht
          exact absurd ht (by simp)
    · rintro ⟨hj, ht⟩
      rcases Nat.lt_succ_iff_lt_or_eq.mp hj with h | h
      · exact Or.inl ⟨h, ht⟩
      · subst h
        right
        refine ⟨le_refl j, ?_⟩
        rw [if_pos ht, testBit_one]
        simp

/-! ### The two stage transformations

One stage of the interleave loop (`x = (x | (x << shift)) & mask`) splits every
chunk of size `2c` into two chunks of size `c`; one stage of the deinterleave
loop merges them back.  `ht` says `t` has no bit whose final interleaved
position would fall outside the `B`-bit word. -/

theorem spread_step (B N c Q t : Nat) (hN : 2 ≤ N) (hc : 0 < c) (hcB : c ≤ B)
    (ht : ∀ j, B ≤ j * N → t.testBit j = false) :
    ((spreadChunks N (2 * c) Q t |||
        ((spreadChunks N (2 * c) Q t <<< ((N - 1) * c)) % 2 ^ B)) &&&
      interleave_mask B N c) = spreadChunks N c (2 * Q) t := by
  have hN0 : 0 < N := by omega
  have h2cN : 2 * c ≤ c * N := by
    have := Nat.mul_le_mul_left c hN
    omega
  have hNc : (N - 1) * c + c = c * N := by
    have h2 : N - 1 + 1 = N := by omega
    calc (N - 1) * c + c = (N - 1 + 1) * c := by ring
      _ = N * c := by rw [h2]
      _ = c * N := Nat.mul_comm N c
  apply Nat.eq_of_testBit_eq
  intro k
  apply bool_eq_of_iff
  rw [Nat.testBit_and, Bool.and_eq_true, Nat.testBit_or, Bool.or_eq_true,
    Nat.testBit_mod_two_pow, Nat.testBit_shiftLeft, Bool.and_eq_true, Bool.and_eq_true,
    decide_eq_true_eq, decide_eq_true_eq, ge_iff_le]
  rw [show ((interleave_mask B N c).testBit k = true) ↔ (k < B ∧ k % (N * c) < c) from
    interleave_mask_testBit B N c k hc hcB hN0]
  simp only [spreadChunks_testBit]
  have hmodc : N * c = c * N := Nat.mul_comm N c
  constructor
  · rintro ⟨hdisj, hkB, hkmod⟩
    rw [hmodc] at hkmod
    rcases hdisj with ⟨q', r', hr', hq', hkeq, ht'⟩ | ⟨hkB2, hge, q', r', hr', hq', hkeq, ht'⟩
    · -- un-shifted copy survives the mask: the even target chunks
      have e1 : q' * (2 * c * N) = 2 * q' * (c * N) := by ring
      have hrlt : r' < c * N := by omega
      have hmodk : k % (c * N) = r' := by
        have e2 : k = r' + 2 * q' * (c * N) := by omega
        rw [e2, Nat.add_mul_mod_self_right, Nat.mod_eq_of_lt hrlt]
      refine ⟨2 * q', r', by omega, by omega, by omega, ?_⟩
      have e3 : 2 * q' * c = q' * (2 * c) := by ring
      have e4 : 2 * q' * c + r' = q' * (2 * c) + r' := by omega
      rwa [e4]
    · -- shifted copy survives the mask: the odd target chunks
      have e1 : q' * (2 * c * N) = 2 * q' * (c * N) := by ring
      rcases Nat.lt_or_ge r' c with hrc | hrc
      · -- a bit that should not have moved was shifted: killed by the mask
        exfalso
        have hrlt : r' + (N - 1) * c < c * N := by omega
        have hmodk : k % (c * N) = r' + (N - 1) * c := by
          have e2 : k = (r' + (N - 1) * c) + 2 * q' * (c * N) := by omega
          rw [e2, Nat.add_mul_mod_self_right, Nat.mod_eq_of_lt hrlt]
        have : c ≤ (N - 1) * c := by
          have := Nat.mul_le_mul_right c (show 1 ≤ N - 1 by omega)
          omega
        omega
      · refine ⟨2 * q' + 1, r' - c, by omega, by omega, ?_, ?_⟩
        · have e5 : (2 * q' + 1) * (c * N) = 2 * q' * (c * N) + c * N := by ring
          omega
        · have e6 : (2 * q' + 1) * c + (r' - c) = q' * (2 * c) + r' := by
            have e7 : (2 * q' + 1) * c = q' * (2 * c) + c := by ring
            omega
          rwa [e6]
  · rintro ⟨q, r, hr, hq, hkeq, ht'⟩
    have hpos : (q * c + r) * N < B := by
      by_contra hge
      rw [ht (q * c + r) (by omega)] at ht'
      exact Bool.false_ne_true ht'
    have e3 : (q * c + r) * N = q * (c * N) + r * N := by ring
    have hrN : r ≤ r * N := Nat.le_mul_of_pos_right r hN0
    have hkB : k < B := by omega
    have hmodk : k % (c * N) = r := by
      have e2 : k = r + q * (c * N) := by omega
      rw [e2, Nat.add_mul_mod_self_right, Nat.mod_eq_of_lt (by omega)]
    rw [hmodc]
    refine ⟨?_, hkB, by omega⟩
    obtain ⟨q', hq'⟩ : ∃ q', q = 2 * q' ∨ q = 2 * q' + 1 := ⟨q / 2, by omega⟩
    rcases hq' with hq' | hq'
    · left
      subst hq'
      have e1 : 2 * q' * (c * N) = q' * (2 * c * N) := by ring
      refine ⟨q', r, by omega, by omega, by omega, ?_⟩
      have e4 : q' * (2 * c) + r = 2 * q' * c + r := by
        have : q' * (2 * c) = 2 * q' * c := by ring
        omega
      rwa [e4]
    · right
      subst hq'
      have e5 : (2 * q' + 1) * (c * N) = q' * (2 * c * N) + c * N := by ring
      have hcN : c ≤ c * N := Nat.le_mul_of_pos_right c hN0
      refine ⟨hkB, by omega, q', c + r, by omega, by omega, by omega, ?_⟩
      have e6 : q' * (2 * c) + (c + r) = (2 * q' + 1) * c + r := by
        have : (2 * q' + 1) * c = q' * (2 * c) + c := by ring
        omega
      rwa [e6]

theorem gather_step (B N c Q t : Nat) (hN : 2 ≤ N) (hc : 0 < c) (h2cB : 2 * c ≤ B)
    (ht : ∀ j, B ≤ j * N → t.testBit j = false) :
    ((spreadChunks N c (2 * Q) t ||| (spreadChunks N c (2 * Q) t >>> ((N - 1) * c))) &&&
      interleave_mask B N (2 * c)) = spreadChunks N (2 * c) Q t := by
  have hN0 : 0 < N := by omega
  have h2cN : 2 * c ≤ c * N := by
    have := Nat.mul_le_mul_left c hN
    omega
  have hNc : (N - 1) * c + c = c * N := by
    have h2 : N - 1 + 1 = N := by omega
    calc (N - 1) * c + c = (N - 1 + 1) * c := by ring
      _ = N * c := by rw [h2]
      _ = c * N := Nat.mul_comm N c
  have hsplit : 2 * c * N = c * N + c * N := by ring
  apply Nat.eq_of_testBit_eq
  intro k
  apply bool_eq_of_iff
  rw [Nat.testBit_and, Bool.and_eq_true, Nat.testBit_or, Bool.or_eq_true,
    Nat.testBit_shiftRight]
  rw [show ((interleave_mask B N (2 * c)).testBit k = true) ↔
      (k < B ∧ k % (N * (2 * c)) < 2 * c) from
    interleave_mask_testBit B N (2 * c) k (by omega) (by omega) hN0]
  simp only [spreadChunks_testBit]
  have hmod2 : N * (2 * c) = 2 * c * N := by ring
  constructor
  · rintro ⟨hdisj, hkB, hkmod⟩
    rw [hmod2] at hkmod
    rcases hdisj with ⟨q, r, hr, hq, hkeq, ht'⟩ | ⟨q, r, hr, hq, hkeq, ht'⟩
    · -- an already-in-place bit: must sit in an even source chunk
      obtain ⟨q', hq'⟩ : ∃ q', q = 2 * q' ∨ q = 2 * q' + 1 := ⟨q / 2, by omega⟩
      rcases hq' with hq' | hq'
      · subst hq'
        have e1 : 2 * q' * (c * N) = q' * (2 * c * N) := by ring
        refine ⟨q', r, by omega, by omega, by omega, ?_⟩
        have e2 : q' * (2 * c) + r = 2 * q' * c + r := by
          have : q' * (2 * c) = 2 * q' * c := by ring
          omega
        rwa [e2]
      · -- odd chunks contradict the coarser mask
        exfalso
        subst hq'
        have e1 : (2 * q' + 1) * (c * N) = q' * (2 * c * N) + c * N := by ring
        have hrlt : c * N + r < 2 * c * N := by omega
        have hmodk : k % (2 * c * N) = c * N + r := by
          have e2 : k = (c * N + r) + q' * (2 * c * N) := by omega
          rw [e2, Nat.add_mul_mod_self_right, Nat.mod_eq_of_lt hrlt]
        omega
    · -- a shifted bit: comes from an odd source chunk
      obtain ⟨q', hq'⟩ : ∃ q', q = 2 * q' ∨ q = 2 * q' + 1 := ⟨q / 2, by omega⟩
      rcases hq' with hq' | hq'
      · -- even source chunk cannot land here
        exfalso
        subst hq'
        have e1 : 2 * q' * (c * N) = q' * (2 * c * N) := by ring
        have hcle : c ≤ (N - 1) * c := by
          have := Nat.mul_le_mul_right c (show 1 ≤ N - 1 by omega)
          omega
        rcases Nat.eq_zero_or_pos q' with hq0 | hq0
        · have e0 : 2 * q' * (c * N) = 0 := by
            rw [hq0]
            ring
          omega
        · have e2 : q' * (2 * c * N) = (q' - 1) * (2 * c * N) + 2 * c * N := by
            have : q' * (2 * c * N) = ((q' - 1) + 1) * (2 * c * N) := by
              congr 1
              omega
            have e3 : ((q' - 1) + 1) * (2 * c * N) = (q' - 1) * (2 * c * N) + 2 * c * N := by
              ring
            omega
          have hklow : k = (q' - 1) * (2 * c * N) + (2 * c * N + r - (N - 1) * c) := by omega
          have hrlt : 2 * c * N + r - (N - 1) * c < 2 * c * N := by omega
          have hmodk : k % (2 * c * N) = 2 * c * N + r - (N - 1) * c := by
            have e4 : k = (2 * c * N + r - (N - 1) * c) + (q' - 1) * (2 * c * N) := by omega
            rw [e4, Nat.add_mul_mod_self_right, Nat.mod_eq_of_lt hrlt]
          omega
      · subst hq'
        have e1 : (2 * q' + 1) * (c * N) = q' * (2 * c * N) + c * N := by ring
        refine ⟨q', c + r, by omega, by omega, by omega, ?_⟩
        have e2 : q' * (2 * c) + (c + r) = (2 * q' + 1) * c + r := by
          have : (2 * q' + 1) * c = q' * (2 * c) + c := by ring
          omega
        rwa [e2]
  · rintro ⟨q, r', hr', hq, hkeq, ht'⟩
    have hpos : (q * (2 * c) + r') * N < B := by
      by_contra hge
      rw [ht (q * (2 * c) + r') (by omega)] at ht'
      exact Bool.false_ne_true ht'
    have e3 : (q * (2 * c) + r') * N = q * (2 * c * N) + r' * N := by ring
    have hrN : r' ≤ r' * N := Nat.le_mul_of_pos_right r' hN0
    have hkB : k < B := by omega
    have hmodk : k % (2 * c * N) = r' := by
      have e2 : k = r' + q * (2 * c * N) := by omega
      rw [e2, Nat.add_mul_mod_self_right, Nat.mod_eq_of_lt (by omega)]
    rw [hmod2]
    refine ⟨?_, hkB, by omega⟩
    rcases Nat.lt_or_ge r' c with hrc | hrc
    · left
      have e1 : 2 * q * (c * N) = q * (2 * c * N) := by ring
      refine ⟨2 * q, r', by omega, by omega, by omega, ?_⟩
      have e4 : 2 * q * c + r' = q * (2 * c) + r' := by
        have : 2 * q * c = q * (2 * c) := by ring
        omega
      rwa [e4]
    · right
      have e5 : (2 * q + 1) * (c * N) = q * (2 * c * N) + c * N := by ring
      refine ⟨2 * q + 1, r' - c, by omega, by omega, by omega, ?_⟩
      have e6 : (2 * q + 1) * c + (r' - c) = q * (2 * c) + r' := by
        have : (2 * q + 1) * c = q * (2 * c) + c := by ring
        omega
      rwa [e6]

/-! ### The generic software engine

`BITS_ILOG2` is modelled from the spec (`log2_bit_width`, §4.1): the `BitCount`
trait revision carrying it is not among the source files (the `src/mask.rs`
present only has `BITS`).  All supported widths are powers of two. -/

def ilog2Aux : Nat → Nat → Nat
  | 0, _ => 0
  | fuel + 1, n => if n ≤ 1 then 0 else ilog2Aux fuel (n / 2) + 1

def BITS_ILOG2 (w : Nat) : Nat := ilog2Aux w w

/-- Stage loop of `Interleave::interleave` (src/interleave.rs:32-37):
`for i in (0..BITS_ILOG2).rev() { x = (x | x.unsigned_shl(shift)) & mask }`,
with `shift = interleave_shift(i, N)` and `mask = interleave_mask(N, 1 << i)`;
`unsigned_shl` wraps modulo `2 ^ B`. -/
def ilvLoop (N B : Nat) : Nat → Nat → Nat
  | 0, x => x
  | L + 1, x =>
    ilvLoop N B L
      ((x ||| ((x <<< interleave_shift L N) % 2 ^ B)) &&& interleave_mask B N (1 <<< L))

/-- `Interleave::interleave` (src/interleave.rs:27-40) over `Nat`: input width
`w`, dimension `N`, output width `B`.  The initial `num_cast` widening is the
identity on `Nat`. -/
def interleave (w N B : Nat) (v : Nat) : Nat := ilvLoop N B (BITS_ILOG2 w) v

theorem one_shiftLeft_eq (n : Nat) : (1 <<< n : Nat) = 2 ^ n := by
  rw [Nat.shiftLeft_eq, Nat.one_mul]

theorem ilvLoop_spread (N B : Nat) (hN : 2 ≤ N) :
    ∀ (L Q t : Nat), 2 ^ L ≤ B → (∀ j, B ≤ j * N → t.testBit j = false) →
      ilvLoop N B L (spreadChunks N (2 ^ L) Q t) = spreadChunks N 1 (Q * 2 ^ L) t := by
  intro L
  induction L with
  | zero =>
    intro Q t _ _
    simp only [ilvLoop]
    rw [pow_zero, Nat.mul_one]
  | succ L ih =>
    intro Q t hB ht
    have hstepB : 2 ^ L ≤ B := le_trans (Nat.pow_le_pow_right (by norm_num) (Nat.le_succ L)) hB
    simp only [ilvLoop]
    rw [interleave_shift_eq, one_shiftLeft_eq]
    have hpow : (2 : Nat) ^ (L + 1) = 2 * 2 ^ L := by rw [pow_succ]; ring
    rw [hpow]
    rw [spread_step B N (2 ^ L) Q t hN (Nat.pos_pow_of_pos L (by norm_num)) hstepB ht]
    rw [ih (2 * Q) t hstepB ht]
    congr 1
    ring

/-- Conclusion of the interleave loop: bit `j` of the input lands at bit `j·N`
of the output and nothing else is set. -/
theorem interleave_testBit (w N B v k : Nat) (hw : 2 ^ BITS_ILOG2 w = w) (hN : 2 ≤ N)
    (hB : w * N ≤ B) (hv : v < 2 ^ w) :
    ((interleave w N B v).testBit k = true ↔
      (k % N = 0 ∧ k / N < w ∧ v.testBit (k / N) = true)) := by
  have hN0 : 0 < N := by omega
  have hwB : w ≤ B := le_trans (Nat.le_mul_of_pos_right w hN0) hB
  have ht : ∀ j, B ≤ j * N → v.testBit j = false := by
    intro j hj
    apply testBit_false_of_lt hv
    by_contra hlt
    push_neg at hlt
    have : j * N < w * N := Nat.mul_lt_mul_of_pos_right hlt hN0
    omega
  have hinit : spreadChunks N (2 ^ BITS_ILOG2 w) 1 v = v := by
    rw [spreadChunks_one, hw, Nat.mod_eq_of_lt hv]
  have hmain := ilvLoop_spread N B hN (BITS_ILOG2 w) 1 v (by rw [hw]; exact hwB) ht
  rw [hinit, Nat.one_mul, hw] at hmain
  unfold interleave
  rw [hmain, spreadChunks_testBit]
  constructor
  · rintro ⟨q, r, hr, hq, hkeq, ht'⟩
    have hr0 : r = 0 := by omega
    subst hr0
    have e1 : q * (1 * N) = q * N := by ring
    have hk : k = q * N := by omega
    have hkm : k % N = 0 := by rw [hk]; exact Nat.mul_mod_left q N
    have hkd : k / N = q := by rw [hk]; exact Nat.mul_div_cancel q hN0
    rw [hkm, hkd]
    refine ⟨rfl, hq, ?_⟩
    have e2 : q * 1 + 0 = q := by omega
    rwa [e2] at ht'
  · rintro ⟨hkm, hkd, ht'⟩
    refine ⟨k / N, 0, by omega, hkd, ?_, ?_⟩
    · have hdm : N * (k / N) + k % N = k := Nat.div_add_mod k N
      have e1 : k / N * (1 * N) = N * (k / N) := by ring
      omega
    · have e2 : k / N * 1 + 0 = k / N := by omega
      rwa [e2]

/-- Modelled from the spec: §4.1, `interleave_shift(stage, dim) = (dim − 1) ·
2^stage`.  `src/deinterleave.rs:32` calls `interleave_shift(N as u32, i)` from
its `crate::mask` revision, whose argument order is `(dim, stage)`; that
revision is not among the source files (the `src/mask.rs` present carries a
const-generic variant), so the formula is taken from the spec.  It agrees with
`interleave_shift i N` of `src/interleave.rs`. -/
def deinterleave_shift (n i : Nat) : Nat := (n - 1) * 2 ^ i

/-- Stage loop of `Deinterleave::deinterleave` (src/deinterleave.rs:30-35):
`for i in 0..BITS_ILOG2 { x = (x | x.unsigned_shr(shift)) & mask }` with
`shift = interleave_shift(N, i)` and `mask = interleave_mask(N, 1 << (i+1))`. -/
def dilvLoop (N B : Nat) : Nat → Nat → Nat → Nat
  | 0, _, x => x
  | K + 1, i, x =>
    dilvLoop N B K (i + 1)
      ((x ||| (x >>> deinterleave_shift N i)) &&& interleave_mask B N (1 <<< (i + 1)))

/-- `Deinterleave::deinterleave` (src/deinterleave.rs:27-38) over `Nat`: input
width `B`, dimension `N`, output width `wOut`; the final `as_()` narrowing is
`% 2 ^ wOut`. -/
def deinterleave (B N wOut : Nat) (v lsb : Nat) : Nat :=
  dilvLoop N B (BITS_ILOG2 wOut) 0 ((v >>> lsb) &&& interleave_mask B N 1) % 2 ^ wOut

theorem dilvLoop_gather (N B : Nat) (hN : 2 ≤ N) :
    ∀ (K i Q t : Nat), 2 ^ (i + K) ≤ B → (∀ j, B ≤ j * N → t.testBit j = false) →
      dilvLoop N B K i (spreadChunks N (2 ^ i) (Q * 2 ^ K) t) =
        spreadChunks N (2 ^ (i + K)) Q t := by
  intro K
  induction K with
  | zero =>
    intro i Q t _ _
    simp only [dilvLoop]
    rw [pow_zero, Nat.mul_one, Nat.add_zero]
  | succ K ih =>
    intro i Q t hB ht
    have hile : i + 1 + K = i + (K + 1) := by omega
    have hstepB : 2 * 2 ^ i ≤ B := by
      have h1 : (2 : Nat) * 2 ^ i = 2 ^ (i + 1) := by rw [pow_succ]; ring
      have h2 : (2 : Nat) ^ (i + 1) ≤ 2 ^ (i + (K + 1)) :=
        Nat.pow_le_pow_right (by norm_num) (by omega)
      omega
    simp only [dilvLoop]
    rw [show deinterleave_shift N i = (N - 1) * 2 ^ i from rfl, one_shiftLeft_eq]
    have harg : Q * 2 ^ (K + 1) = 2 * (Q * 2 ^ K) := by rw [pow_succ]; ring
    have hp : (2 : Nat) ^ (i + 1) = 2 * 2 ^ i := by rw [pow_succ]; ring
    rw [harg, hp]
    rw [gather_step B N (2 ^ i) (Q * 2 ^ K) t hN (Nat.pos_pow_of_pos i (by norm_num))
      hstepB ht]
    rw [← hp, ih (i + 1) Q t (by rw [hile]; exact hB) ht, hile]

/-- The initial masking step of `deinterleave` produces the chunk-size-one
spread of the gathered target bits. -/
theorem deinterleave_init (B N lsb v Q0 : Nat) (hN : 2 ≤ N) (hB : 0 < B)
    (hcov : B ≤ Q0 * N) (hv : v < 2 ^ B) :
    (v >>> lsb) &&& interleave_mask B N 1 =
      spreadChunks N 1 Q0 (gatherBits N lsb v Q0) := by
  have hN0 : 0 < N := by omega
  apply Nat.eq_of_testBit_eq
  intro k
  apply bool_eq_of_iff
  rw [Nat.testBit_and, Bool.and_eq_true, Nat.testBit_shiftRight,
    show ((interleave_mask B N 1).testBit k = true) ↔ (k < B ∧ k % (N * 1) < 1) from
      interleave_mask_testBit B N 1 k (by omega) (by omega) hN0,
    spreadChunks_testBit]
  simp only [gatherBits_testBit]
  rw [Nat.mul_one]
  constructor
  · rintro ⟨hbit, hkB, hkm⟩
    have hqlt : k / N < Q0 := (Nat.div_lt_iff_lt_mul hN0).mpr (by omega)
    refine ⟨k / N, 0, by omega, ?_, ?_, ?_, ?_⟩
    · exact hqlt
    · have hdm : N * (k / N) + k % N = k := Nat.div_add_mod k N
      have e1 : k / N * (1 * N) = N * (k / N) := by ring
      omega
    · have e2 : k / N * 1 + 0 = k / N := by omega
      rw [e2]
      exact hqlt
    · have hdm : N * (k / N) + k % N = k := Nat.div_add_mod k N
      have e2 : k / N * 1 + 0 = k / N := by omega
      rw [e2]
      have e4 : lsb + (k / N) * N = lsb + k := by
        have e3 : k / N * N = N * (k / N) := by ring
        omega
      rwa [e4]
  · rintro ⟨q, r, hr, hq, hkeq, hqQ, hbit⟩
    have hr0 : r = 0 := by omega
    subst hr0
    have e1 : q * (1 * N) = q * N := by ring
    have hk : k = q * N := by omega
    have e2 : q * 1 + 0 = q := by omega
    rw [e2] at hbit
    have hpos : lsb + q * N < B := by
      by_contra hge
      rw [testBit_false_of_lt hv (by omega)] at hbit
      exact Bool.false_ne_true hbit
    refine ⟨?_, by omega, ?_⟩
    · have e4 : lsb + k = lsb + q * N := by omega
      rwa [e4]
    · rw [hk, Nat.mul_mod_left]
      omega

/-! ### Concrete 2-D fast paths from `src/lib.rs`

The 16-bit and 32-bit pair encoders interleave both coordinates in one pass
over a double-width word; the decoders run the inverse gather.  Left shifts
wrap modulo the word width, as Rust's `<<` does on `u64`/`u128`. -/

/-- `index_of` (src/lib.rs:433-449): Z-order index of 16-bit 2-D coordinates. -/
def index_of (x y : Nat) : Nat :=
  let packed := x ||| ((y <<< 32) % 2 ^ 64)
  let first := (packed ||| ((packed <<< 8) % 2 ^ 64)) &&& 0x00FF00FF00FF00FF
  let second := (first ||| ((first <<< 4) % 2 ^ 64)) &&& 0x0F0F0F0F0F0F0F0F
  let third := (second ||| ((second <<< 2) % 2 ^ 64)) &&& 0x3333333333333333
  let fourth := (third ||| ((third <<< 1) % 2 ^ 64)) &&& 0x5555555555555555
  (fourth ||| (fourth >>> 31)) % 2 ^ 32

/-- `coord_of` (src/lib.rs:507-524): 2-D coordinates of a 32-bit index. -/
def coord_of (idx : Nat) : Nat × Nat :=
  let wide_idx := idx
  let packed := (wide_idx &&& 0x55555555) ||| (((wide_idx &&& 0xAAAAAAAA) <<< 31) % 2 ^ 64)
  let first := (packed ||| (packed >>> 1)) &&& 0x3333333333333333
  let second := (first ||| (first >>> 2)) &&& 0x0F0F0F0F0F0F0F0F
  let third := (second ||| (second >>> 4)) &&& 0x00FF00FF00FF00FF
  let fourth := third ||| (third >>> 8)
  (fourth % 2 ^ 16, (fourth >>> 32) % 2 ^ 16)

/-- `index_of_64` (src/lib.rs:464-476): Z-order index of 32-bit 2-D coordinates. -/
def index_of_64 (x y : Nat) : Nat :=
  let packed := x ||| ((y <<< 64) % 2 ^ 128)
  let first := (packed ||| ((packed <<< 16) % 2 ^ 128)) &&& 0x0000FFFF0000FFFF0000FFFF0000FFFF
  let second := (first ||| ((first <<< 8) % 2 ^ 128)) &&& 0x00FF00FF00FF00FF00FF00FF00FF00FF
  let third := (second ||| ((second <<< 4) % 2 ^ 128)) &&& 0x0F0F0F0F0F0F0F0F0F0F0F0F0F0F0F0F
  let fourth := (third ||| ((third <<< 2) % 2 ^ 128)) &&& 0x33333333333333333333333333333333
  let fifth := (fourth ||| ((fourth <<< 1) % 2 ^ 128)) &&& 0x55555555555555555555555555555555
  (fifth ||| (fifth >>> 63)) % 2 ^ 64

/-- `coord_of_64` (src/lib.rs:539-552): 2-D coordinates of a 64-bit index. -/
def coord_of_64 (idx : Nat) : Nat × Nat :=
  let wide_idx := idx
  let packed := (wide_idx &&& 0x5555555555555555) |||
    (((wide_idx &&& 0xAAAAAAAAAAAAAAAA) <<< 63) % 2 ^ 128)
  let first := (packed ||| (packed >>> 1)) &&& 0x33333333333333333333333333333333
  let second := (first ||| (first >>> 2)) &&& 0x0F0F0F0F0F0F0F0F0F0F0F0F0F0F0F0F
  let third := (second ||| (second >>> 4)) &&& 0x00FF00FF00FF00FF00FF00FF00FF00FF
  let fourth := (third ||| (third >>> 8)) &&& 0x0000FFFF0000FFFF0000FFFF0000FFFF
  let fifth := fourth ||| (fourth >>> 16)
  (fifth % 2 ^ 32, (fifth >>> 64) % 2 ^ 32)

/-- `single_pass` inside `index_of_64_dual_pass` (src/lib.rs:481-488). -/
def single_pass (val : Nat) : Nat :=
  let v1 := (val ||| ((val <<< 8) % 2 ^ 64)) &&& 0x00FF00FF00FF00FF
  let v2 := (v1 ||| ((v1 <<< 4) % 2 ^ 64)) &&& 0x0F0F0F0F0F0F0F0F
  let v3 := (v2 ||| ((v2 <<< 2) % 2 ^ 64)) &&& 0x3333333333333333
  (v3 ||| ((v3 <<< 1) % 2 ^ 64)) &&& 0x5555555555555555

/-- `index_of_64_dual_pass` (src/lib.rs:479-494): per-axis dual-pass encoder. -/
def index_of_64_dual_pass (x y : Nat) : Nat :=
  single_pass x ||| ((single_pass y <<< 1) % 2 ^ 64)

theorem gatherBits_lt (N lsb v : Nat) : ∀ w, gatherBits N lsb v w < 2 ^ w := by
  intro w
  induction w with
  | zero => simp [gatherBits]
  | succ w ih =>
    rw [gatherBits]
    apply or_lt_two_pow
    · exact lt_trans ih (Nat.pow_lt_pow_right (by norm_num) (Nat.lt_succ_self w))
    · rw [Nat.shiftLeft_eq]
      have hb : (if v.testBit (lsb + w * N) then 1 else 0) ≤ 1 := by
        split <;> omega
      calc (if v.testBit (lsb + w * N) then 1 else 0) * 2 ^ w ≤ 1 * 2 ^ w :=
            Nat.mul_le_mul_right _ hb
        _ < 2 ^ (w + 1) := by rw [pow_succ]; omega

/-- Packing two 16-bit halves 32 bits apart is the two-chunk spread of their
32-bit concatenation. -/
theorem packed_eq_spread (x y : Nat) (hx : x < 2 ^ 16) (hy : y < 2 ^ 16) :
    x ||| ((y <<< 32) % 2 ^ 64) = spreadChunks 2 16 2 (x ||| (y <<< 16)) := by
  apply Nat.eq_of_testBit_eq
  intro k
  apply bool_eq_of_iff
  rw [Nat.testBit_or, Bool.or_eq_true, Nat.testBit_mod_two_pow, Nat.testBit_shiftLeft,
    spreadChunks_testBit]
  simp only [Nat.testBit_or, Nat.testBit_shiftLeft, Bool.and_eq_true, Bool.or_eq_true,
    decide_eq_true_eq]
  constructor
  · rintro (hxb | ⟨hk64, h32, hyb⟩)
    · have hklt : k < 16 := by
        by_contra hge
        rw [testBit_false_of_lt hx (by omega)] at hxb
        exact Bool.false_ne_true hxb
      exact ⟨0, k, by omega, by omega, by omega, Or.inl (by simpa using hxb)⟩
    · have hklt : k - 32 < 16 := by
        by_contra hge
        rw [testBit_false_of_lt hy (by omega)] at hyb
        exact Bool.false_ne_true hyb
      refine ⟨1, k - 32, by omega, by omega, by omega, Or.inr ⟨by omega, ?_⟩⟩
      have e1 : 1 * 16 + (k - 32) - 16 = k - 32 := by omega
      rwa [e1]
  · rintro ⟨q, r, hr, hq, hkeq, hbit⟩
    interval_cases q
    · rcases hbit with hxb | ⟨hge, hyb⟩
      · left
        have e1 : 0 * 16 + r = r := by omega
        rw [e1] at hxb
        have e2 : k = r := by omega
        rwa [e2]
      · exfalso
        omega
    · rcases hbit with hxb | ⟨hge, hyb⟩
      · exfalso
        have e1 : 1 * 16 + r = 16 + r := by omega
        rw [e1, testBit_false_of_lt hx (by omega)] at hxb
        exact Bool.false_ne_true hxb
      · right
        have e1 : 1 * 16 + r - 16 = r := by omega
        rw [e1] at hyb
        have e2 : k - 32 = r := by omega
        refine ⟨by omega, by omega, ?_⟩
        rwa [e2]

theorem spreadChunks_one_testBit (N Q t k : Nat) (hN : 0 < N) :
    ((spreadChunks N 1 Q t).testBit k = true ↔
      (k % N = 0 ∧ k / N < Q ∧ t.testBit (k / N) = true)) := by
  rw [spreadChunks_testBit]
  constructor
  · rintro ⟨q, r, hr, hq, hkeq, ht'⟩
    have hr0 : r = 0 := by omega
    subst hr0
    have e1 : q * (1 * N) = q * N := by ring
    have hk : k = q * N := by omega
    have hkm : k % N = 0 := by rw [hk]; exact Nat.mul_mod_left q N
    have hkd : k / N = q := by rw [hk]; exact Nat.mul_div_cancel q hN
    rw [hkm, hkd]
    refine ⟨rfl, hq, ?_⟩
    have e2 : q * 1 + 0 = q := by omega
    rwa [e2] at ht'
  · rintro ⟨hkm, hkd, ht'⟩
    refine ⟨k / N, 0, by omega, hkd, ?_, ?_⟩
    · have hdm : N * (k / N) + k % N = k := Nat.div_add_mod k N
      have e1 : k / N * (1 * N) = N * (k / N) := by ring
      omega
    · have e2 : k / N * 1 + 0 = k / N := by omega
      rwa [e2]

/-- Final extraction step shared by `index_of` and `index_of_64`: or-ing the
fully spread word with itself shifted right by `2W − 1` and truncating to
`2W` bits yields the index whose even bits come from the low half of `t` and
whose odd bits come from the high half. -/
theorem morton_final_bits (W t m : Nat) (hW : 0 < W) :
    (((spreadChunks 2 1 (2 * W) t |||
        (spreadChunks 2 1 (2 * W) t >>> (2 * W - 1))) % 2 ^ (2 * W)).testBit (2 * m) = true ↔
      (m < W ∧ t.testBit m = true)) ∧
    (((spreadChunks 2 1 (2 * W) t |||
        (spreadChunks 2 1 (2 * W) t >>> (2 * W - 1))) % 2 ^ (2 * W)).testBit (2 * m + 1) = true ↔
      (m < W ∧ t.testBit (W + m) = true)) := by
  constructor
  · rw [Nat.testBit_mod_two_pow, Bool.and_eq_true, decide_eq_true_eq, Nat.testBit_or,
      Bool.or_eq_true, Nat.testBit_shiftRight,
      spreadChunks_one_testBit 2 (2 * W) t (2 * m) (by norm_num),
      spreadChunks_one_testBit 2 (2 * W) t (2 * W - 1 + 2 * m) (by norm_num)]
    constructor
    · rintro ⟨h2m, h | h⟩
      · obtain ⟨hp, hd, hb⟩ := h
        rw [show 2 * m / 2 = m by omega] at hd hb
        exact ⟨by omega, hb⟩
      · exfalso
        have := h.1
        omega
    · rintro ⟨hmW, hb⟩
      refine ⟨by omega, Or.inl ⟨by omega, ?_, ?_⟩⟩
      · rw [show 2 * m / 2 = m by omega]
        omega
      · rwa [show 2 * m / 2 = m by omega]
  · rw [Nat.testBit_mod_two_pow, Bool.and_eq_true, decide_eq_true_eq, Nat.testBit_or,
      Bool.or_eq_true, Nat.testBit_shiftRight,
      spreadChunks_one_testBit 2 (2 * W) t (2 * m + 1) (by norm_num),
      spreadChunks_one_testBit 2 (2 * W) t (2 * W - 1 + (2 * m + 1)) (by norm_num)]
    constructor
    · rintro ⟨h2m, h | h⟩
      · exfalso
        have := h.1
        omega
      · obtain ⟨hp, hd, hb⟩ := h
        rw [show (2 * W - 1 + (2 * m + 1)) / 2 = W + m by omega] at hd hb
        exact ⟨by omega, hb⟩
    · rintro ⟨hmW, hb⟩
      refine ⟨by omega, Or.inr ⟨by omega, ?_, ?_⟩⟩
      · rw [show (2 * W - 1 + (2 * m + 1)) / 2 = W + m by omega]
        omega
      · rwa [show (2 * W - 1 + (2 * m + 1)) / 2 = W + m by omega]

theorem index_of_eq_spread (x y : Nat) (hx : x < 2 ^ 16) (hy : y < 2 ^ 16) :
    index_of x y =
      (spreadChunks 2 1 32 (x ||| (y <<< 16)) |||
        (spreadChunks 2 1 32 (x ||| (y <<< 16)) >>> 31)) % 2 ^ 32 := by
  have htlt : x ||| (y <<< 16) < 2 ^ 32 := by
    apply or_lt_two_pow (lt_trans hx (by norm_num))
    rw [Nat.shiftLeft_eq]
    calc y * 2 ^ 16 < 2 ^ 16 * 2 ^ 16 := Nat.mul_lt_mul_of_pos_right hy (by norm_num)
      _ = 2 ^ 32 := by norm_num
  have ht : ∀ j, 64 ≤ j * 2 → (x ||| (y <<< 16)).testBit j = false := fun j hj =>
    testBit_false_of_lt htlt (by omega)
  have e1 := spread_step 64 2 8 2 (x ||| (y <<< 16)) (by norm_num) (by norm_num) (by norm_num) ht
  have e2 := spread_step 64 2 4 4 (x ||| (y <<< 16)) (by norm_num) (by norm_num) (by norm_num) ht
  have e3 := spread_step 64 2 2 8 (x ||| (y <<< 16)) (by norm_num) (by norm_num) (by norm_num) ht
  have e4 := spread_step 64 2 1 16 (x ||| (y <<< 16)) (by norm_num) (by norm_num) (by norm_num) ht
  rw [show ((2 : Nat) - 1) * 8 = 8 by norm_num, show ((2 : Nat) * 8) = 16 by norm_num,
    show ((2 : Nat) * 2) = 4 by norm_num,
    show interleave_mask 64 2 8 = 0x00FF00FF00FF00FF by decide] at e1
  rw [show ((2 : Nat) - 1) * 4 = 4 by norm_num, show ((2 : Nat) * 4) = 8 by norm_num,
    show interleave_mask 64 2 4 = 0x0F0F0F0F0F0F0F0F by decide] at e2
  rw [show ((2 : Nat) - 1) * 2 = 2 by norm_num, show ((2 : Nat) * 2) = 4 by norm_num,
    show ((2 : Nat) * 8) = 16 by norm_num,
    show interleave_mask 64 2 2 = 0x3333333333333333 by decide] at e3
  rw [show ((2 : Nat) - 1) * 1 = 1 by norm_num, show ((2 : Nat) * 1) = 2 by norm_num,
    show ((2 : Nat) * 16) = 32 by norm_num,
    show interleave_mask 64 2 1 = 0x5555555555555555 by decide] at e4
  simp only [index_of]
  rw [packed_eq_spread x y hx hy, e1, e2, e3, e4]

theorem index_of_lt (x y : Nat) : index_of x y < 2 ^ 32 := by
  simp only [index_of]
  exact Nat.mod_lt _ (by norm_num)

/-- Bit-pair characterization of `index_of`: even bits are `x`, odd bits `y`. -/
theorem index_of_bits (x y m : Nat) (hx : x < 2 ^ 16) (hy : y < 2 ^ 16) :
    (index_of x y).testBit (2 * m) = x.testBit m ∧
      (index_of x y).testBit (2 * m + 1) = y.testBit m := by
  have htlow : ∀ j, j < 16 → (x ||| (y <<< 16)).testBit j = x.testBit j := by
    intro j hj
    rw [Nat.testBit_or, Nat.testBit_shiftLeft, decide_eq_false (by omega : ¬ (j ≥ 16))]
    simp
  have hthigh : ∀ j, (x ||| (y <<< 16)).testBit (16 + j) = y.testBit j := by
    intro j
    rw [Nat.testBit_or, Nat.testBit_shiftLeft, testBit_false_of_lt hx (by omega),
      decide_eq_true (by omega : 16 + j ≥ 16)]
    simp [show 16 + j - 16 = j by omega]
  have hfin := morton_final_bits 16 (x ||| (y <<< 16)) m (by norm_num)
  rw [show ((2 : Nat) * 16 - 1) = 31 by norm_num, show ((2 : Nat) * 16) = 32 by norm_num] at hfin
  rw [index_of_eq_spread x y hx hy]
  constructor
  · apply bool_eq_of_iff
    rw [hfin.1]
    constructor
    · rintro ⟨hm, hb⟩
      rwa [htlow m hm] at hb
    · intro hb
      have hm : m < 16 := by
        by_contra h
        rw [testBit_false_of_lt hx (by omega)] at hb
        exact Bool.false_ne_true hb
      exact ⟨hm, by rwa [htlow m hm]⟩
  · apply bool_eq_of_iff
    rw [hfin.2]
    constructor
    · rintro ⟨hm, hb⟩
      rwa [hthigh m] at hb
    · intro hb
      have hm : m < 16 := by
        by_contra h
        rw [testBit_false_of_lt hy (by omega)] at hb
        exact Bool.false_ne_true hb
      exact ⟨hm, by rwa [hthigh m]⟩

/-- The first line of `coord_of` rebuilds the one-chunk spread of the two
deinterleaved halves packed 16 bits apart. -/
theorem coord_packed_eq (idx : Nat) (hidx : idx < 2 ^ 32) :
    (idx &&& 0x55555555) ||| (((idx &&& 0xAAAAAAAA) <<< 31) % 2 ^ 64) =
      spreadChunks 2 1 32 (gatherBits 2 0 idx 16 ||| (gatherBits 2 1 idx 16 <<< 16)) := by
  have h5 : (0x55555555 : Nat) = interleave_mask 32 2 1 := by decide
  have hA : (0xAAAAAAAA : Nat) = interleave_mask 32 2 1 <<< 1 := by decide
  have himask : ∀ j, ((interleave_mask 32 2 1).testBit j = true ↔ (j < 32 ∧ j % 2 = 0)) := by
    intro j
    rw [interleave_mask_testBit 32 2 1 j (by norm_num) (by norm_num) (by norm_num)]
    constructor
    · rintro ⟨h1, h2⟩
      exact ⟨h1, by omega⟩
    · rintro ⟨h1, h2⟩
      exact ⟨h1, by omega⟩
  have hgb0lt := gatherBits_lt 2 0 idx 16
  have ht'low : ∀ j, j < 16 →
      (gatherBits 2 0 idx 16 ||| (gatherBits 2 1 idx 16 <<< 16)).testBit j =
        (gatherBits 2 0 idx 16).testBit j := by
    intro j hj
    rw [Nat.testBit_or, Nat.testBit_shiftLeft, decide_eq_false (by omega : ¬ (j ≥ 16))]
    simp
  have ht'high : ∀ j,
      (gatherBits 2 0 idx 16 ||| (gatherBits 2 1 idx 16 <<< 16)).testBit (16 + j) =
        (gatherBits 2 1 idx 16).testBit j := by
    intro j
    rw [Nat.testBit_or, Nat.testBit_shiftLeft, testBit_false_of_lt hgb0lt (by omega),
      decide_eq_true (by omega : 16 + j ≥ 16)]
    simp [show 16 + j - 16 = j by omega]
  apply Nat.eq_of_testBit_eq
  intro k
  apply bool_eq_of_iff
  rw [Nat.testBit_or, Bool.or_eq_true, Nat.testBit_and, Bool.and_eq_true,
    Nat.testBit_mod_two_pow, Bool.and_eq_true, decide_eq_true_eq, Nat.testBit_shiftLeft,
    Bool.and_eq_true, decide_eq_true_eq, Nat.testBit_and, Bool.and_eq_true,
    spreadChunks_one_testBit 2 32 _ k (by norm_num), h5, hA, Nat.testBit_shiftLeft,
    Bool.and_eq_true, decide_eq_true_eq]
  constructor
  · rintro (⟨hib, hm⟩ | ⟨hk64, h31, hib, hmA⟩)
    · rw [himask k] at hm
      obtain ⟨hk32, hke⟩ := hm
      refine ⟨hke, by omega, ?_⟩
      rw [ht'low (k / 2) (by omega), gatherBits_testBit]
      refine ⟨by omega, ?_⟩
      rwa [show 0 + k / 2 * 2 = k by omega]
    · rw [himask (k - 31 - 1)] at hmA
      obtain ⟨hlt32, heven⟩ := hmA
      have hke : k % 2 = 0 := by omega
      have hk48 : k < 64 := hk64
      refine ⟨hke, by omega, ?_⟩
      have hsplit : k / 2 = 16 + (k / 2 - 16) := by omega
      rw [hsplit, ht'high, gatherBits_testBit]
      refine ⟨by omega, ?_⟩
      rwa [show 1 + (k / 2 - 16) * 2 = k - 31 by omega]
  · rintro ⟨hke, hkd, htb⟩
    rcases Nat.lt_or_ge (k / 2) 16 with hlow | hhigh
    · left
      rw [ht'low (k / 2) hlow, gatherBits_testBit] at htb
      obtain ⟨-, hib⟩ := htb
      rw [show 0 + k / 2 * 2 = k by omega] at hib
      refine ⟨hib, ?_⟩
      rw [himask k]
      exact ⟨by omega, hke⟩
    · right
      rw [show k / 2 = 16 + (k / 2 - 16) by omega, ht'high, gatherBits_testBit] at htb
      obtain ⟨hj16, hib⟩ := htb
      rw [show 1 + (k / 2 - 16) * 2 = k - 31 by omega] at hib
      refine ⟨by omega, by omega, hib, ?_, ?_⟩
      · omega
      · rw [himask (k - 31 - 1)]
        exact ⟨by omega, by omega⟩

/-- `coord_of` deinterleaves the even and odd bit streams of its argument. -/
theorem coord_of_eq_gather (idx : Nat) (hidx : idx < 2 ^ 32) :
    coord_of idx = (gatherBits 2 0 idx 16, gatherBits 2 1 idx 16) := by
  have hgb0lt := gatherBits_lt 2 0 idx 16
  have hgb1lt := gatherBits_lt 2 1 idx 16
  have ht'lt : gatherBits 2 0 idx 16 ||| (gatherBits 2 1 idx 16 <<< 16) < 2 ^ 32 := by
    apply or_lt_two_pow (lt_trans hgb0lt (by norm_num))
    rw [Nat.shiftLeft_eq]
    calc gatherBits 2 1 idx 16 * 2 ^ 16 < 2 ^ 16 * 2 ^ 16 :=
          Nat.mul_lt_mul_of_pos_right hgb1lt (by norm_num)
      _ = 2 ^ 32 := by norm_num
  have htt : ∀ j, 64 ≤ j * 2 →
      (gatherBits 2 0 idx 16 ||| (gatherBits 2 1 idx 16 <<< 16)).testBit j = false :=
    fun j hj => testBit_false_of_lt ht'lt (by omega)
  have ht'low : ∀ j, j < 16 →
      (gatherBits 2 0 idx 16 ||| (gatherBits 2 1 idx 16 <<< 16)).testBit j =
        (gatherBits 2 0 idx 16).testBit j := by
    intro j hj
    rw [Nat.testBit_or, Nat.testBit_shiftLeft, decide_eq_false (by omega : ¬ (j ≥ 16))]
    simp
  have ht'high : ∀ j,
      (gatherBits 2 0 idx 16 ||| (gatherBits 2 1 idx 16 <<< 16)).testBit (16 + j) =
        (gatherBits 2 1 idx 16).testBit j := by
    intro j
    rw [Nat.testBit_or, Nat.testBit_shiftLeft, testBit_false_of_lt hgb0lt (by omega),
      decide_eq_true (by omega : 16 + j ≥ 16)]
    simp [show 16 + j - 16 = j by omega]
  have gt1 := gather_step 64 2 1 16
    (gatherBits 2 0 idx 16 ||| (gatherBits 2 1 idx 16 <<< 16))
    (by norm_num) (by norm_num) (by norm_num) htt
  have gt2 := gather_step 64 2 2 8
    (gatherBits 2 0 idx 16 ||| (gatherBits 2 1 idx 16 <<< 16))
    (by norm_num) (by norm_num) (by norm_num) htt
  have gt3 := gather_step 64 2 4 4
    (gatherBits 2 0 idx 16 ||| (gatherBits 2 1 idx 16 <<< 16))
    (by norm_num) (by norm_num) (by norm_num) htt
  rw [show ((2 : Nat) - 1) * 1 = 1 by norm_num, show ((2 : Nat) * 16) = 32 by norm_num,
    show ((2 : Nat) * 1) = 2 by norm_num,
    show interleave_mask 64 2 2 = 0x3333333333333333 by decide] at gt1
  rw [show ((2 : Nat) - 1) * 2 = 2 by norm_num, show ((2 : Nat) * 8) = 16 by norm_num,
    show ((2 : Nat) * 2) = 4 by norm_num,
    show interleave_mask 64 2 4 = 0x0F0F0F0F0F0F0F0F by decide] at gt2
  rw [show ((2 : Nat) - 1) * 4 = 4 by norm_num, show ((2 : Nat) * 4) = 8 by norm_num,
    show interleave_mask 64 2 8 = 0x00FF00FF00FF00FF by decide] at gt3
  simp only [coord_of]
  rw [coord_packed_eq idx hidx, gt1, gt2, gt3, Prod.mk.injEq]
  constructor
  · apply Nat.eq_of_testBit_eq
    intro k
    apply bool_eq_of_iff
    rw [Nat.testBit_mod_two_pow, Bool.and_eq_true, decide_eq_true_eq, Nat.testBit_or,
      Bool.or_eq_true, Nat.testBit_shiftRight]
    simp only [spreadChunks_testBit]
    constructor
    · rintro ⟨hk16, h | h⟩
      · obtain ⟨q, r, hr, hq, hkeq, htb⟩ := h
        have hq0 : q = 0 := by omega
        subst hq0
        rw [show 0 * 8 + r = r by omega] at htb
        rw [show (r : Nat) = k by omega] at htb
        rwa [ht'low k hk16] at htb
      · obtain ⟨q, r, hr, hq, hkeq, htb⟩ := h
        have hq1 : q = 1 := by omega
        subst hq1
        rw [show 1 * 8 + r = 8 + r by omega, show (8 : Nat) + r = k by omega] at htb
        rwa [ht'low k hk16] at htb
    · intro hb
      have hk16 : k < 16 := by
        by_contra hge
        rw [testBit_false_of_lt hgb0lt (by omega)] at hb
        exact Bool.false_ne_true hb
      refine ⟨hk16, ?_⟩
      rcases Nat.lt_or_ge k 8 with hk8 | hk8
      · exact Or.inl ⟨0, k, by omega, by omega, by omega,
          by rw [show 0 * 8 + k = k by omega, ht'low k hk16]; exact hb⟩
      · exact Or.inr ⟨1, k - 8, by omega, by omega, by omega,
          by rw [show 1 * 8 + (k - 8) = k by omega, ht'low k hk16]; exact hb⟩
  · apply Nat.eq_of_testBit_eq
    intro k
    apply bool_eq_of_iff
    rw [Nat.testBit_mod_two_pow, Bool.and_eq_true, decide_eq_true_eq,
      Nat.testBit_shiftRight, Nat.testBit_or, Bool.or_eq_true, Nat.testBit_shiftRight]
    simp only [spreadChunks_testBit]
    constructor
    · rintro ⟨hk16, h | h⟩
      · obtain ⟨q, r, hr, hq, hkeq, htb⟩ := h
        have hq2 : q = 2 := by omega
        subst hq2
        rw [show 2 * 8 + r = 16 + r by omega, show (r : Nat) = k by omega, ht'high k] at htb
        exact htb
      · obtain ⟨q, r, hr, hq, hkeq, htb⟩ := h
        have hq3 : q = 3 := by omega
        subst hq3
        rw [show 3 * 8 + r = 16 + (8 + r) by omega, show (8 : Nat) + r = k by omega,
          ht'high k] at htb
        exact htb
    · intro hb
      have hk16 : k < 16 := by
        by_contra hge
        rw [testBit_false_of_lt hgb1lt (by omega)] at hb
        exact Bool.false_ne_true hb
      refine ⟨hk16, ?_⟩
      rcases Nat.lt_or_ge k 8 with hk8 | hk8
      · exact Or.inl ⟨2, k, by omega, by omega, by omega,
          by rw [show 2 * 8 + k = 16 + k by omega, ht'high k]; exact hb⟩
      · exact Or.inr ⟨3, k - 8, by omega, by omega, by omega,
          by rw [show 3 * 8 + (k - 8) = 16 + k by omega, ht'high k]; exact hb⟩

/-- Round trip (16-bit pairs): `coord_of (index_of (x, y)) = (x, y)`. -/
theorem coord_of_index_of (x y : Nat) (hx : x < 2 ^ 16) (hy : y < 2 ^ 16) :
    coord_of (index_of x y) = (x, y) := by
  rw [coord_of_eq_gather (index_of x y) (index_of_lt x y), Prod.mk.injEq]
  constructor
  · apply Nat.eq_of_testBit_eq
    intro j
    apply bool_eq_of_iff
    rw [gatherBits_testBit, show 0 + j * 2 = 2 * j by omega,
      (index_of_bits x y j hx hy).1]
    constructor
    · rintro ⟨-, hb⟩
      exact hb
    · intro hb
      have hj : j < 16 := by
        by_contra hge
        rw [testBit_false_of_lt hx (by omega)] at hb
        exact Bool.false_ne_true hb
      exact ⟨hj, hb⟩
  · apply Nat.eq_of_testBit_eq
    intro j
    apply bool_eq_of_iff
    rw [gatherBits_testBit, show 1 + j * 2 = 2 * j + 1 by omega,
      (index_of_bits x y j hx hy).2]
    constructor
    · rintro ⟨-, hb⟩
      exact hb
    · intro hb
      have hj : j < 16 := by
        by_contra hge
        rw [testBit_false_of_lt hy (by omega)] at hb
        exact Bool.false_ne_true hb
      exact ⟨hj, hb⟩

/-- Inverse consistency (32-bit indices): `index_of (coord_of i) = i`. -/
theorem index_of_coord_of (i : Nat) (hi : i < 2 ^ 32) :
    index_of (coord_of i).1 (coord_of i).2 = i := by
  rw [coord_of_eq_gather i hi]
  show index_of (gatherBits 2 0 i 16) (gatherBits 2 1 i 16) = i
  apply Nat.eq_of_testBit_eq
  intro k
  obtain ⟨m, hm | hm⟩ : ∃ m, k = 2 * m ∨ k = 2 * m + 1 := ⟨k / 2, by omega⟩
  · subst hm
    rw [(index_of_bits _ _ m (gatherBits_lt 2 0 i 16) (gatherBits_lt 2 1 i 16)).1]
    apply bool_eq_of_iff
    rw [gatherBits_testBit, show 0 + m * 2 = 2 * m by omega]
    constructor
    · rintro ⟨-, hb⟩
      exact hb
    · intro hb
      have hmlt : m < 16 := by
        by_contra hge
        rw [testBit_false_of_lt hi (by omega)] at hb
        exact Bool.false_ne_true hb
      exact ⟨hmlt, hb⟩
  · subst hm
    rw [(index_of_bits _ _ m (gatherBits_lt 2 0 i 16) (gatherBits_lt 2 1 i 16)).2]
    apply bool_eq_of_iff
    rw [gatherBits_testBit, show 1 + m * 2 = 2 * m + 1 by omega]
    constructor
    · rintro ⟨-, hb⟩
      exact hb
    · intro hb
      have hmlt : m < 16 := by
        by_contra hge
        rw [testBit_false_of_lt hi (by omega)] at hb
        exact Bool.false_ne_true hb
      exact ⟨hmlt, hb⟩

/-! ### The 64-bit pair functions: same development one width up -/

theorem packed_eq_spread_64 (x y : Nat) (hx : x < 2 ^ 32) (hy : y < 2 ^ 32) :
    x ||| ((y <<< 64) % 2 ^ 128) = spreadChunks 2 32 2 (x ||| (y <<< 32)) := by
  apply Nat.eq_of_testBit_eq
  intro k
  apply bool_eq_of_iff
  rw [Nat.testBit_or, Bool.or_eq_true, Nat.testBit_mod_two_pow, Nat.testBit_shiftLeft,
    spreadChunks_testBit]
  simp only [Nat.testBit_or, Nat.testBit_shiftLeft, Bool.and_eq_true, Bool.or_eq_true,
    decide_eq_true_eq]
  constructor
  · rintro (hxb | ⟨hk128, h64, hyb⟩)
    · have hklt : k < 32 := by
        by_contra hge
        rw [testBit_false_of_lt hx (by omega)] at hxb
        exact Bool.false_ne_true hxb
      exact ⟨0, k, by omega, by omega, by omega, Or.inl (by simpa using hxb)⟩
    · have hklt : k - 64 < 32 := by
        by_contra hge
        rw [testBit_false_of_lt hy (by omega)] at hyb
        exact Bool.false_ne_true hyb
      refine ⟨1, k - 64, by omega, by omega, by omega, Or.inr ⟨by omega, ?_⟩⟩
      have e1 : 1 * 32 + (k - 64) - 32 = k - 64 := by omega
      rwa [e1]
  · rintro ⟨q, r, hr, hq, hkeq, hbit⟩
    interval_cases q
    · rcases hbit with hxb | ⟨hge, hyb⟩
      · left
        have e1 : 0 * 32 + r = r := by omega
        rw [e1] at hxb
        have e2 : k = r := by omega
        rwa [e2]
      · exfalso
        omega
    · rcases hbit with hxb | ⟨hge, hyb⟩
      · exfalso
        have e1 : 1 * 32 + r = 32 + r := by omega
        rw [e1, testBit_false_of_lt hx (by omega)] at hxb
        exact Bool.false_ne_true hxb
      · right
        have e1 : 1 * 32 + r - 32 = r := by omega
        rw [e1] at hyb
        have e2 : k - 64 = r := by omega
        refine ⟨by omega, by omega, ?_⟩
        rwa [e2]

theorem index_of_64_eq_spread (x y : Nat) (hx : x < 2 ^ 32) (hy : y < 2 ^ 32) :
    index_of_64 x y =
      (spreadChunks 2 1 64 (x ||| (y <<< 32)) |||
        (spreadChunks 2 1 64 (x ||| (y <<< 32)) >>> 63)) % 2 ^ 64 := by
  have htlt : x ||| (y <<< 32) < 2 ^ 64 := by
    apply or_lt_two_pow (lt_trans hx (by norm_num))
    rw [Nat.shiftLeft_eq]
    calc y * 2 ^ 32 < 2 ^ 32 * 2 ^ 32 := Nat.mul_lt_mul_of_pos_right hy (by norm_num)
      _ = 2 ^ 64 := by norm_num
  have ht : ∀ j, 128 ≤ j * 2 → (x ||| (y <<< 32)).testBit j = false := fun j hj =>
    testBit_false_of_lt htlt (by omega)
  have e1 := spread_step 128 2 16 2 (x ||| (y <<< 32)) (by norm_num) (by norm_num) (by norm_num) ht
  have e2 := spread_step 128 2 8 4 (x ||| (y <<< 32)) (by norm_num) (by norm_num) (by norm_num) ht
  have e3 := spread_step 128 2 4 8 (x ||| (y <<< 32)) (by norm_num) (by norm_num) (by norm_num) ht
  have e4 := spread_step 128 2 2 16 (x ||| (y <<< 32)) (by norm_num) (by norm_num) (by norm_num) ht
  have e5 := spread_step 128 2 1 32 (x ||| (y <<< 32)) (by norm_num) (by norm_num) (by norm_num) ht
  simp only [show ((2 : Nat) - 1) * 16 = 16 by norm_num, show ((2 : Nat) * 16) = 32 by norm_num,
    show ((2 : Nat) * 2) = 4 by norm_num,
    show interleave_mask 128 2 16 = 0x0000FFFF0000FFFF0000FFFF0000FFFF by decide] at e1
  simp only [show ((2 : Nat) - 1) * 8 = 8 by norm_num, show ((2 : Nat) * 8) = 16 by norm_num,
    show ((2 : Nat) * 4) = 8 by norm_num,
    show interleave_mask 128 2 8 = 0x00FF00FF00FF00FF00FF00FF00FF00FF by decide] at e2
  simp only [show ((2 : Nat) - 1) * 4 = 4 by norm_num, show ((2 : Nat) * 4) = 8 by norm_num,
    show ((2 : Nat) * 8) = 16 by norm_num,
    show interleave_mask 128 2 4 = 0x0F0F0F0F0F0F0F0F0F0F0F0F0F0F0F0F by decide] at e3
  simp only [show ((2 : Nat) - 1) * 2 = 2 by norm_num, show ((2 : Nat) * 2) = 4 by norm_num,
    show ((2 : Nat) * 16) = 32 by norm_num,
    show interleave_mask 128 2 2 = 0x33333333333333333333333333333333 by decide] at e4
  simp only [show ((2 : Nat) - 1) * 1 = 1 by norm_num, show ((2 : Nat) * 1) = 2 by norm_num,
    show ((2 : Nat) * 32) = 64 by norm_num,
    show interleave_mask 128 2 1 = 0x55555555555555555555555555555555 by decide] at e5
  simp only [index_of_64]
  rw [packed_eq_spread_64 x y hx hy, e1, e2, e3, e4, e5]

theorem index_of_64_lt (x y : Nat) : index_of_64 x y < 2 ^ 64 := by
  simp only [index_of_64]
  exact Nat.mod_lt _ (by norm_num)

theorem index_of_64_bits (x y m : Nat) (hx : x < 2 ^ 32) (hy : y < 2 ^ 32) :
    (index_of_64 x y).testBit (2 * m) = x.testBit m ∧
      (index_of_64 x y).testBit (2 * m + 1) = y.testBit m := by
  have htlow : ∀ j, j < 32 → (x ||| (y <<< 32)).testBit j = x.testBit j := by
    intro j hj
    rw [Nat.testBit_or, Nat.testBit_shiftLeft, decide_eq_false (by omega : ¬ (j ≥ 32))]
    simp
  have hthigh : ∀ j, (x ||| (y <<< 32)).testBit (32 + j) = y.testBit j := by
    intro j
    rw [Nat.testBit_or, Nat.testBit_shiftLeft, testBit_false_of_lt hx (by omega),
      decide_eq_true (by omega : 32 + j ≥ 32)]
    simp [show 32 + j - 32 = j by omega]
  have hfin := morton_final_bits 32 (x ||| (y <<< 32)) m (by norm_num)
  rw [show ((2 : Nat) * 32 - 1) = 63 by norm_num, show ((2 : Nat) * 32) = 64 by norm_num] at hfin
  rw [index_of_64_eq_spread x y hx hy]
  constructor
  · apply bool_eq_of_iff
    rw [hfin.1]
    constructor
    · rintro ⟨hm, hb⟩
      rwa [htlow m hm] at hb
    · intro hb
      have hm : m < 32 := by
        by_contra h
        rw [testBit_false_of_lt hx (by omega)] at hb
        exact Bool.false_ne_true hb
      exact ⟨hm, by rwa [htlow m hm]⟩
  · apply bool_eq_of_iff
    rw [hfin.2]
    constructor
    · rintro ⟨hm, hb⟩
      rwa [hthigh m] at hb
    · intro hb
      have hm : m < 32 := by
        by_contra h
        rw [testBit_false_of_lt hy (by omega)] at hb
        exact Bool.false_ne_true hb
      exact ⟨hm, by rwa [hthigh m]⟩

theorem coord_packed_eq_64 (idx : Nat) (hidx : idx < 2 ^ 64) :
    (idx &&& 0x5555555555555555) ||| (((idx &&& 0xAAAAAAAAAAAAAAAA) <<< 63) % 2 ^ 128) =
      spreadChunks 2 1 64 (gatherBits 2 0 idx 32 ||| (gatherBits 2 1 idx 32 <<< 32)) := by
  have h5 : (0x5555555555555555 : Nat) = interleave_mask 64 2 1 := by decide
  have hA : (0xAAAAAAAAAAAAAAAA : Nat) = interleave_mask 64 2 1 <<< 1 := by decide
  have himask : ∀ j, ((interleave_mask 64 2 1).testBit j = true ↔ (j < 64 ∧ j % 2 = 0)) := by
    intro j
    rw [interleave_mask_testBit 64 2 1 j (by norm_num) (by norm_num) (by norm_num)]
    constructor
    · rintro ⟨h1, h2⟩
      exact ⟨h1, by omega⟩
    · rintro ⟨h1, h2⟩
      exact ⟨h1, by omega⟩
  have hgb0lt := gatherBits_lt 2 0 idx 32
  have ht'low : ∀ j, j < 32 →
      (gatherBits 2 0 idx 32 ||| (gatherBits 2 1 idx 32 <<< 32)).testBit j =
        (gatherBits 2 0 idx 32).testBit j := by
    intro j hj
    rw [Nat.testBit_or, Nat.testBit_shiftLeft, decide_eq_false (by omega : ¬ (j ≥ 32))]
    simp
  have ht'high : ∀ j,
      (gatherBits 2 0 idx 32 ||| (gatherBits 2 1 idx 32 <<< 32)).testBit (32 + j) =
        (gatherBits 2 1 idx 32).testBit j := by
    intro j
    rw [Nat.testBit_or, Nat.testBit_shiftLeft, testBit_false_of_lt hgb0lt (by omega),
      decide_eq_true (by omega : 32 + j ≥ 32)]
    simp [show 32 + j - 32 = j by omega]
  apply Nat.eq_of_testBit_eq
  intro k
  apply bool_eq_of_iff
  rw [Nat.testBit_or, Bool.or_eq_true, Nat.testBit_and, Bool.and_eq_true,
    Nat.testBit_mod_two_pow, Bool.and_eq_true, decide_eq_true_eq, Nat.testBit_shiftLeft,
    Bool.and_eq_true, decide_eq_true_eq, Nat.testBit_and, Bool.and_eq_true,
    spreadChunks_one_testBit 2 64 _ k (by norm_num), h5, hA, Nat.testBit_shiftLeft,
    Bool.and_eq_true, decide_eq_true_eq]
  constructor
  · rintro (⟨hib, hm⟩ | ⟨hk128, h63, hib, hmA⟩)
    · rw [himask k] at hm
      obtain ⟨hk64, hke⟩ := hm
      refine ⟨hke, by omega, ?_⟩
      rw [ht'low (k / 2) (by omega), gatherBits_testBit]
      refine ⟨by omega, ?_⟩
      rwa [show 0 + k / 2 * 2 = k by omega]
    · rw [himask (k - 63 - 1)] at hmA
      obtain ⟨hlt64, heven⟩ := hmA
      have hke : k % 2 = 0 := by omega
      refine ⟨hke, by omega, ?_⟩
      have hsplit : k / 2 = 32 + (k / 2 - 32) := by omega
      rw [hsplit, ht'high, gatherBits_testBit]
      refine ⟨by omega, ?_⟩
      rwa [show 1 + (k / 2 - 32) * 2 = k - 63 by omega]
  · rintro ⟨hke, hkd, htb⟩
    rcases Nat.lt_or_ge (k / 2) 32 with hlow | hhigh
    · left
      rw [ht'low (k / 2) hlow, gatherBits_testBit] at htb
      obtain ⟨-, hib⟩ := htb
      rw [show 0 + k / 2 * 2 = k by omega] at hib
      refine ⟨hib, ?_⟩
      rw [himask k]
      exact ⟨by omega, hke⟩
    · right
      rw [show k / 2 = 32 + (k / 2 - 32) by omega, ht'high, gatherBits_testBit] at htb
      obtain ⟨hj32, hib⟩ := htb
      rw [show 1 + (k / 2 - 32) * 2 = k - 63 by omega] at hib
      refine ⟨by omega, by omega, hib, ?_, ?_⟩
      · omega
      · rw [himask (k - 63 - 1)]
        exact ⟨by omega, by omega⟩

theorem coord_of_64_eq_gather (idx : Nat) (hidx : idx < 2 ^ 64) :
    coord_of_64 idx = (gatherBits 2 0 idx 32, gatherBits 2 1 idx 32) := by
  have hgb0lt := gatherBits_lt 2 0 idx 32
  have hgb1lt := gatherBits_lt 2 1 idx 32
  have ht'lt : gatherBits 2 0 idx 32 ||| (gatherBits 2 1 idx 32 <<< 32) < 2 ^ 64 := by
    apply or_lt_two_pow (lt_trans hgb0lt (by norm_num))
    rw [Nat.shiftLeft_eq]
    calc gatherBits 2 1 idx 32 * 2 ^ 32 < 2 ^ 32 * 2 ^ 32 :=
          Nat.mul_lt_mul_of_pos_right hgb1lt (by norm_num)
      _ = 2 ^ 64 := by norm_num
  have htt : ∀ j, 128 ≤ j * 2 →
      (gatherBits 2 0 idx 32 ||| (gatherBits 2 1 idx 32 <<< 32)).testBit j = false :=
    fun j hj => testBit_false_of_lt ht'lt (by omega)
  have ht'low : ∀ j, j < 32 →
      (gatherBits 2 0 idx 32 ||| (gatherBits 2 1 idx 32 <<< 32)).testBit j =
        (gatherBits 2 0 idx 32).testBit j := by
    intro j hj
    rw [Nat.testBit_or, Nat.testBit_shiftLeft, decide_eq_false (by omega : ¬ (j ≥ 32))]
    simp
  have ht'high : ∀ j,
      (gatherBits 2 0 idx 32 ||| (gatherBits 2 1 idx 32 <<< 32)).testBit (32 + j) =
        (gatherBits 2 1 idx 32).testBit j := by
    intro j
    rw [Nat.testBit_or, Nat.testBit_shiftLeft, testBit_false_of_lt hgb0lt (by omega),
      decide_eq_true (by omega : 32 + j ≥ 32)]
    simp [show 32 + j - 32 = j by omega]
  have gt1 := gather_step 128 2 1 32
    (gatherBits 2 0 idx 32 ||| (gatherBits 2 1 idx 32 <<< 32))
    (by norm_num) (by norm_num) (by norm_num) htt
  have gt2 := gather_step 128 2 2 16
    (gatherBits 2 0 idx 32 ||| (gatherBits 2 1 idx 32 <<< 32))
    (by norm_num) (by norm_num) (by norm_num) htt
  have gt3 := gather_step 128 2 4 8
    (gatherBits 2 0 idx 32 ||| (gatherBits 2 1 idx 32 <<< 32))
    (by norm_num) (by norm_num) (by norm_num) htt
  have gt4 := gather_step 128 2 8 4
    (gatherBits 2 0 idx 32 ||| (gatherBits 2 1 idx 32 <<< 32))
    (by norm_num) (by norm_num) (by norm_num) htt
  simp only [show ((2 : Nat) - 1) * 1 = 1 by norm_num, show ((2 : Nat) * 32) = 64 by norm_num,
    show ((2 : Nat) * 1) = 2 by norm_num,
    show interleave_mask 128 2 2 = 0x33333333333333333333333333333333 by decide] at gt1
  simp only [show ((2 : Nat) - 1) * 2 = 2 by norm_num, show ((2 : Nat) * 16) = 32 by norm_num,
    show ((2 : Nat) * 2) = 4 by norm_num,
    show interleave_mask 128 2 4 = 0x0F0F0F0F0F0F0F0F0F0F0F0F0F0F0F0F by decide] at gt2
  simp only [show ((2 : Nat) - 1) * 4 = 4 by norm_num, show ((2 : Nat) * 8) = 16 by norm_num,
    show ((2 : Nat) * 4) = 8 by norm_num,
    show interleave_mask 128 2 8 = 0x00FF00FF00FF00FF00FF00FF00FF00FF by decide] at gt3
  simp only [show ((2 : Nat) - 1) * 8 = 8 by norm_num, show ((2 : Nat) * 4) = 8 by norm_num,
    show ((2 : Nat) * 8) = 16 by norm_num,
    show interleave_mask 128 2 16 = 0x0000FFFF0000FFFF0000FFFF0000FFFF by decide] at gt4
  simp only [coord_of_64]
  rw [coord_packed_eq_64 idx hidx, gt1, gt2, gt3, gt4, Prod.mk.injEq]
  constructor
  · apply Nat.eq_of_testBit_eq
    intro k
    apply bool_eq_of_iff
    rw [Nat.testBit_mod_two_pow, Bool.and_eq_true, decide_eq_true_eq, Nat.testBit_or,
      Bool.or_eq_true, Nat.testBit_shiftRight]
    simp only [spreadChunks_testBit]
    constructor
    · rintro ⟨hk32, h | h⟩
      · obtain ⟨q, r, hr, hq, hkeq, htb⟩ := h
        have hq0 : q = 0 := by omega
        subst hq0
        rw [show 0 * 16 + r = r by omega] at htb
        rw [show (r : Nat) = k by omega] at htb
        rwa [ht'low k hk32] at htb
      · obtain ⟨q, r, hr, hq, hkeq, htb⟩ := h
        have hq1 : q = 1 := by omega
        subst hq1
        rw [show 1 * 16 + r = 16 + r by omega, show (16 : Nat) + r = k by omega] at htb
        rwa [ht'low k hk32] at htb
    · intro hb
      have hk32 : k < 32 := by
        by_contra hge
        rw [testBit_false_of_lt hgb0lt (by omega)] at hb
        exact Bool.false_ne_true hb
      refine ⟨hk32, ?_⟩
      rcases Nat.lt_or_ge k 16 with hk16 | hk16
      · exact Or.inl ⟨0, k, by omega, by omega, by omega,
          by rw [show 0 * 16 + k = k by omega, ht'low k hk32]; exact hb⟩
      · exact Or.inr ⟨1, k - 16, by omega, by omega, by omega,
          by rw [show 1 * 16 + (k - 16) = k by omega, ht'low k hk32]; exact hb⟩
  · apply Nat.eq_of_testBit_eq
    intro k
    apply bool_eq_of_iff
    rw [Nat.testBit_mod_two_pow, Bool.and_eq_true, decide_eq_true_eq,
      Nat.testBit_shiftRight, Nat.testBit_or, Bool.or_eq_true, Nat.testBit_shiftRight]
    simp only [spreadChunks_testBit]
    constructor
    · rintro ⟨hk32, h | h⟩
      · obtain ⟨q, r, hr, hq, hkeq, htb⟩ := h
        have hq2 : q = 2 := by omega
        subst hq2
        rw [show 2 * 16 + r = 32 + r by omega, show (r : Nat) = k by omega, ht'high k] at htb
        exact htb
      · obtain ⟨q, r, hr, hq, hkeq, htb⟩ := h
        have hq3 : q = 3 := by omega
        subst hq3
        rw [show 3 * 16 + r = 32 + (16 + r) by omega, show (16 : Nat) + r = k by omega,
          ht'high k] at htb
        exact htb
    · intro hb
      have hk32 : k < 32 := by
        by_contra hge
        rw [testBit_false_of_lt hgb1lt (by omega)] at hb
        exact Bool.false_ne_true hb
      refine ⟨hk32, ?_⟩
      rcases Nat.lt_or_ge k 16 with hk16 | hk16
      · exact Or.inl ⟨2, k, by omega, by omega, by omega,
          by rw [show 2 * 16 + k = 32 + k by omega, ht'high k]; exact hb⟩
      · exact Or.inr ⟨3, k - 16, by omega, by omega, by omega,
          by rw [show 3 * 16 + (k - 16) = 32 + k by omega, ht'high k]; exact hb⟩

/-- Round trip (32-bit pairs): `coord_of_64 (index_of_64 (x, y)) = (x, y)`. -/
theorem coord_of_64_index_of_64 (x y : Nat) (hx : x < 2 ^ 32) (hy : y < 2 ^ 32) :
    coord_of_64 (index_of_64 x y) = (x, y) := by
  rw [coord_of_64_eq_gather (index_of_64 x y) (index_of_64_lt x y), Prod.mk.injEq]
  constructor
  · apply Nat.eq_of_testBit_eq
    intro j
    apply bool_eq_of_iff
    rw [gatherBits_testBit, show 0 + j * 2 = 2 * j by omega,
      (index_of_64_bits x y j hx hy).1]
    constructor
    · rintro ⟨-, hb⟩
      exact hb
    · intro hb
      have hj : j < 32 := by
        by_contra hge
        rw [testBit_false_of_lt hx (by omega)] at hb
        exact Bool.false_ne_true hb
      exact ⟨hj, hb⟩
  · apply Nat.eq_of_testBit_eq
    intro j
    apply bool_eq_of_iff
    rw [gatherBits_testBit, show 1 + j * 2 = 2 * j + 1 by omega,
      (index_of_64_bits x y j hx hy).2]
    constructor
    · rintro ⟨-, hb⟩
      exact hb
    · intro hb
      have hj : j < 32 := by
        by_contra hge
        rw [testBit_false_of_lt hy (by omega)] at hb
        exact Bool.false_ne_true hb
      exact ⟨hj, hb⟩

/-- Inverse consistency (64-bit indices): `index_of_64 (coord_of_64 i) = i`. -/
theorem index_of_64_coord_of_64 (i : Nat) (hi : i < 2 ^ 64) :
    index_of_64 (coord_of_64 i).1 (coord_of_64 i).2 = i := by
  rw [coord_of_64_eq_gather i hi]
  show index_of_64 (gatherBits 2 0 i 32) (gatherBits 2 1 i 32) = i
  apply Nat.eq_of_testBit_eq
  intro k
  obtain ⟨m, hm | hm⟩ : ∃ m, k = 2 * m ∨ k = 2 * m + 1 := ⟨k / 2, by omega⟩
  · subst hm
    rw [(index_of_64_bits _ _ m (gatherBits_lt 2 0 i 32) (gatherBits_lt 2 1 i 32)).1]
    apply bool_eq_of_iff
    rw [gatherBits_testBit, show 0 + m * 2 = 2 * m by omega]
    constructor
    · rintro ⟨-, hb⟩
      exact hb
    · intro hb
      have hmlt : m < 32 := by
        by_contra hge
        rw [testBit_false_of_lt hi (by omega)] at hb
        exact Bool.false_ne_true hb
      exact ⟨hmlt, hb⟩
  · subst hm
    rw [(index_of_64_bits _ _ m (gatherBits_lt 2 0 i 32) (gatherBits_lt 2 1 i 32)).2]
    apply bool_eq_of_iff
    rw [gatherBits_testBit, show 1 + m * 2 = 2 * m + 1 by omega]
    constructor
    · rintro ⟨-, hb⟩
      exact hb
    · intro hb
      have hmlt : m < 32 := by
        by_contra hge
        rw [testBit_false_of_lt hi (by omega)] at hb
        exact Bool.false_ne_true hb
      exact ⟨hmlt, hb⟩

/-! ### The bmi2 hardware path (src/lib.rs:554-727)

`_pdep_u32/u64` (parallel bit deposit) and `_pext_u32/u64` (parallel bit
extract) are modelled by their Intel bit-level semantics: `pdep` scatters the
low bits of `src` into the set positions of `mask`; `pext` gathers the
mask-selected bits of `src` into a contiguous low run.  The fuel argument is
the register width. -/

def pdep : Nat → Nat → Nat → Nat
  | 0, _, _ => 0
  | B + 1, src, mask =>
    if mask % 2 = 1 then src % 2 + 2 * pdep B (src / 2) (mask / 2)
    else 2 * pdep B src (mask / 2)

def pext : Nat → Nat → Nat → Nat
  | 0, _, _ => 0
  | B + 1, src, mask =>
    if mask % 2 = 1 then src % 2 + 2 * pext B (src / 2) (mask / 2)
    else pext B (src / 2) (mask / 2)

/-- Number of set bits of `mask` strictly below position `k`. -/
def countBelow (mask : Nat) : Nat → Nat
  | 0 => 0
  | k + 1 => countBelow mask k + (if mask.testBit k then 1 else 0)

/-- Position of the `n`-th set bit of `mask` within `B` bits, as a list that
is empty when there is no such bit. -/
def nthSet (mask : Nat) : Nat → Nat → List Nat
  | 0, _ => []
  | B + 1, n =>
    if mask % 2 = 1 then
      (if n = 0 then [0] else (nthSet (mask / 2) B (n - 1)).map (· + 1))
    else (nthSet (mask / 2) B n).map (· + 1)

theorem countBelow_succ_shift (mask k : Nat) :
    countBelow mask (k + 1) = (if mask % 2 = 1 then 1 else 0) + countBelow (mask / 2) k := by
  induction k with
  | zero =>
    show countBelow mask 0 + (if mask.testBit 0 then 1 else 0) =
      (if mask % 2 = 1 then 1 else 0) + countBelow (mask / 2) 0
    rw [show countBelow mask 0 = 0 from rfl, show countBelow (mask / 2) 0 = 0 from rfl,
      Nat.testBit_zero]
    rcases Nat.mod_two_eq_zero_or_one mask with h | h <;> simp [h]
  | succ k ih =>
    show countBelow mask (k + 1) + (if mask.testBit (k + 1) then 1 else 0) = _
    rw [ih, Nat.testBit_add_one]
    show _ = (if mask % 2 = 1 then 1 else 0) +
      (countBelow (mask / 2) k + (if (mask / 2).testBit k then 1 else 0))
    omega

theorem pdep_testBit (B : Nat) : ∀ src mask k,
    ((pdep B src mask).testBit k = true ↔
      (k < B ∧ mask.testBit k = true ∧ src.testBit (countBelow mask k) = true)) := by
  induction B with
  | zero =>
    intro src mask k
    simp [pdep]
  | succ B ih =>
    intro src mask k
    rcases Nat.mod_two_eq_zero_or_one mask with hm | hm
    · rw [pdep, if_neg (by omega)]
      cases k with
      | zero =>
        rw [Nat.testBit_zero, Nat.testBit_zero]
        constructor
        · intro h
          rw [decide_eq_true_eq] at h
          omega
        · rintro ⟨-, hmb, -⟩
          rw [decide_eq_true_eq] at hmb
          omega
      | succ k =>
        rw [Nat.testBit_add_one,
          show 2 * pdep B src (mask / 2) / 2 = pdep B src (mask / 2) by omega,
          ih src (mask / 2) k, Nat.testBit_add_one, countBelow_succ_shift,
          if_neg (by omega), Nat.zero_add]
        constructor
        · rintro ⟨h1, h2, h3⟩
          exact ⟨by omega, h2, h3⟩
        · rintro ⟨h1, h2, h3⟩
          exact ⟨by omega, h2, h3⟩
    · rw [pdep, if_pos hm]
      cases k with
      | zero =>
        rw [Nat.testBit_zero, Nat.testBit_zero,
          show countBelow mask 0 = 0 from rfl, Nat.testBit_zero]
        have hmod : (src % 2 + 2 * pdep B (src / 2) (mask / 2)) % 2 = src % 2 := by omega
        rw [hmod]
        constructor
        · intro h
          exact ⟨by omega, by rw [decide_eq_true_eq]; omega, h⟩
        · rintro ⟨-, -, h⟩
          exact h
      | succ k =>
        rw [Nat.testBit_add_one,
          show (src % 2 + 2 * pdep B (src / 2) (mask / 2)) / 2 = pdep B (src / 2) (mask / 2)
            by omega,
          ih (src / 2) (mask / 2) k, Nat.testBit_add_one, countBelow_succ_shift, if_pos hm,
          show 1 + countBelow (mask / 2) k = countBelow (mask / 2) k + 1 by omega,
          Nat.testBit_add_one]
        constructor
        · rintro ⟨h1, h2, h3⟩
          exact ⟨by omega, h2, h3⟩
        · rintro ⟨h1, h2, h3⟩
          exact ⟨by omega, h2, h3⟩

theorem nthSet_ge (B : Nat) : ∀ mask n, B ≤ n → nthSet mask B n = [] := by
  induction B with
  | zero =>
    intro mask n _
    rfl
  | succ B ih =>
    intro mask n hn
    rw [nthSet]
    rcases Nat.mod_two_eq_zero_or_one mask with hm | hm
    · rw [if_neg (by omega), ih (mask / 2) n (by omega)]
      rfl
    · rw [if_pos hm, if_neg (by omega), ih (mask / 2) (n - 1) (by omega)]
      rfl

theorem pext_testBit (B : Nat) : ∀ src mask j,
    ((pext B src mask).testBit j =
      (nthSet mask B j).any (fun p => src.testBit p)) := by
  induction B with
  | zero =>
    intro src mask j
    simp [pext, nthSet]
  | succ B ih =>
    intro src mask j
    rcases Nat.mod_two_eq_zero_or_one mask with hm | hm
    · rw [pext, if_neg (by omega), nthSet, if_neg (by omega), List.any_map,
        ih (src / 2) (mask / 2) j]
      congr 1
      funext p
      show (src / 2).testBit p = src.testBit (p + 1)
      rw [Nat.testBit_add_one]
    · rw [pext, if_pos hm, nthSet, if_pos hm]
      cases j with
      | zero =>
        rw [if_pos rfl, Nat.testBit_zero, List.any_cons, List.any_nil, Bool.or_false,
          Nat.testBit_zero]
        have hmod : (src % 2 + 2 * pext B (src / 2) (mask / 2)) % 2 = src % 2 := by omega
        rw [hmod]
      | succ j =>
        rw [if_neg (by omega), Nat.testBit_add_one,
          show (src % 2 + 2 * pext B (src / 2) (mask / 2)) / 2 = pext B (src / 2) (mask / 2)
            by omega,
          List.any_map, ih (src / 2) (mask / 2) j, show j + 1 - 1 = j by omega]
        congr 1
        funext p
        show (src / 2).testBit p = src.testBit (p + 1)
        rw [Nat.testBit_add_one]

/-- `bmi2::index_of` (src/lib.rs:590-596): `_pdep_u32(x, 0x55555555) |
_pdep_u32(y, 0xAAAAAAAA)`. -/
def bmi2_index_of (x y : Nat) : Nat :=
  pdep 32 x 0x55555555 ||| pdep 32 y 0xAAAAAAAA

/-- `bmi2::index_of_64` (src/lib.rs:634-640). -/
def bmi2_index_of_64 (x y : Nat) : Nat :=
  pdep 64 x 0x5555555555555555 ||| pdep 64 y 0xAAAAAAAAAAAAAAAA

/-- `bmi2::coord_of` (src/lib.rs:676-682): `_pext_u32` at both masks, each
truncated `as u16`. -/
def bmi2_coord_of (idx : Nat) : Nat × Nat :=
  (pext 32 idx 0x55555555 % 2 ^ 16, pext 32 idx 0xAAAAAAAA % 2 ^ 16)

/-- `bmi2::coord_of_64` (src/lib.rs:720-726). -/
def bmi2_coord_of_64 (idx : Nat) : Nat × Nat :=
  (pext 64 idx 0x5555555555555555 % 2 ^ 32, pext 64 idx 0xAAAAAAAAAAAAAAAA % 2 ^ 32)

theorem bmi2_index_of_eq (x y : Nat) (hx : x < 2 ^ 16) (hy : y < 2 ^ 16) :
    bmi2_index_of x y = index_of x y := by
  have hmask5 : ∀ k, k < 32 → ((0x55555555 : Nat).testBit k = decide (k % 2 = 0) ∧
      countBelow 0x55555555 k = (k + 1) / 2) := by decide
  have hmaskA : ∀ k, k < 32 → ((0xAAAAAAAA : Nat).testBit k = decide (k % 2 = 1) ∧
      countBelow 0xAAAAAAAA k = k / 2) := by decide
  apply Nat.eq_of_testBit_eq
  intro k
  obtain ⟨m, hm | hm⟩ : ∃ m, k = 2 * m ∨ k = 2 * m + 1 := ⟨k / 2, by omega⟩
  · subst hm
    rw [(index_of_bits x y m hx hy).1]
    apply bool_eq_of_iff
    rw [bmi2_index_of, Nat.testBit_or, Bool.or_eq_true, pdep_testBit, pdep_testBit]
    constructor
    · rintro (⟨hk, hmb, hsb⟩ | ⟨hk, hmb, hsb⟩)
      · rw [(hmask5 (2 * m) hk).2, show (2 * m + 1) / 2 = m by omega] at hsb
        exact hsb
      · exfalso
        rw [(hmaskA (2 * m) hk).1, decide_eq_true_eq] at hmb
        omega
    · intro hxb
      have hm16 : m < 16 := by
        by_contra hge
        rw [testBit_false_of_lt hx (by omega)] at hxb
        exact Bool.false_ne_true hxb
      refine Or.inl ⟨by omega, ?_, ?_⟩
      · rw [(hmask5 (2 * m) (by omega)).1, decide_eq_true_eq]
        omega
      · rw [(hmask5 (2 * m) (by omega)).2, show (2 * m + 1) / 2 = m by omega]
        exact hxb
  · subst hm
    rw [(index_of_bits x y m hx hy).2]
    apply bool_eq_of_iff
    rw [bmi2_index_of, Nat.testBit_or, Bool.or_eq_true, pdep_testBit, pdep_testBit]
    constructor
    · rintro (⟨hk, hmb, hsb⟩ | ⟨hk, hmb, hsb⟩)
      · exfalso
        rw [(hmask5 (2 * m + 1) hk).1, decide_eq_true_eq] at hmb
        omega
      · rw [(hmaskA (2 * m + 1) hk).2, show (2 * m + 1) / 2 = m by omega] at hsb
        exact hsb
    · intro hyb
      have hm16 : m < 16 := by
        by_contra hge
        rw [testBit_false_of_lt hy (by omega)] at hyb
        exact Bool.false_ne_true hyb
      refine Or.inr ⟨by omega, ?_, ?_⟩
      · rw [(hmaskA (2 * m + 1) (by omega)).1, decide_eq_true_eq]
        omega
      · rw [(hmaskA (2 * m + 1) (by omega)).2, show (2 * m + 1) / 2 = m by omega]
        exact hyb

theorem bmi2_coord_of_eq (idx : Nat) (hidx : idx < 2 ^ 32) :
    bmi2_coord_of idx = coord_of idx := by
  have hnth5 : ∀ j, j < 32 →
      nthSet 0x55555555 32 j = if j < 16 then [2 * j] else [] := by decide
  have hnthA : ∀ j, j < 32 →
      nthSet 0xAAAAAAAA 32 j = if j < 16 then [2 * j + 1] else [] := by decide
  rw [coord_of_eq_gather idx hidx, bmi2_coord_of, Prod.mk.injEq]
  constructor
  · apply Nat.eq_of_testBit_eq
    intro j
    apply bool_eq_of_iff
    rw [Nat.testBit_mod_two_pow, Bool.and_eq_true, decide_eq_true_eq, pext_testBit,
      gatherBits_testBit]
    constructor
    · rintro ⟨hj16, hany⟩
      rw [hnth5 j (by omega), if_pos hj16, List.any_cons, List.any_nil, Bool.or_false] at hany
      exact ⟨hj16, by rwa [show 0 + j * 2 = 2 * j by omega]⟩
    · rintro ⟨hj16, hb⟩
      refine ⟨hj16, ?_⟩
      rw [hnth5 j (by omega), if_pos hj16, List.any_cons, List.any_nil, Bool.or_false]
      rwa [show 0 + j * 2 = 2 * j by omega] at hb
  · apply Nat.eq_of_testBit_eq
    intro j
    apply bool_eq_of_iff
    rw [Nat.testBit_mod_two_pow, Bool.and_eq_true, decide_eq_true_eq, pext_testBit,
      gatherBits_testBit]
    constructor
    · rintro ⟨hj16, hany⟩
      rw [hnthA j (by omega), if_pos hj16, List.any_cons, List.any_nil, Bool.or_false] at hany
      exact ⟨hj16, by rwa [show 1 + j * 2 = 2 * j + 1 by omega]⟩
    · rintro ⟨hj16, hb⟩
      refine ⟨hj16, ?_⟩
      rw [hnthA j (by omega), if_pos hj16, List.any_cons, List.any_nil, Bool.or_false]
      rwa [show 1 + j * 2 = 2 * j + 1 by omega] at hb

theorem bmi2_index_of_64_eq (x y : Nat) (hx : x < 2 ^ 32) (hy : y < 2 ^ 32) :
    bmi2_index_of_64 x y = index_of_64 x y := by
  have hmask5 : ∀ k, k < 64 → ((0x5555555555555555 : Nat).testBit k = decide (k % 2 = 0) ∧
      countBelow 0x5555555555555555 k = (k + 1) / 2) := by decide
  have hmaskA : ∀ k, k < 64 → ((0xAAAAAAAAAAAAAAAA : Nat).testBit k = decide (k % 2 = 1) ∧
      countBelow 0xAAAAAAAAAAAAAAAA k = k / 2) := by decide
  apply Nat.eq_of_testBit_eq
  intro k
  obtain ⟨m, hm | hm⟩ : ∃ m, k = 2 * m ∨ k = 2 * m + 1 := ⟨k / 2, by omega⟩
  · subst hm
    rw [(index_of_64_bits x y m hx hy).1]
    apply bool_eq_of_iff
    rw [bmi2_index_of_64, Nat.testBit_or, Bool.or_eq_true, pdep_testBit, pdep_testBit]
    constructor
    · rintro (⟨hk, hmb, hsb⟩ | ⟨hk, hmb, hsb⟩)
      · rw [(hmask5 (2 * m) hk).2, show (2 * m + 1) / 2 = m by omega] at hsb
        exact hsb
      · exfalso
        rw [(hmaskA (2 * m) hk).1, decide_eq_true_eq] at hmb
        omega
    · intro hxb
      have hm32 : m < 32 := by
        by_contra hge
        rw [testBit_false_of_lt hx (by omega)] at hxb
        exact Bool.false_ne_true hxb
      refine Or.inl ⟨by omega, ?_, ?_⟩
      · rw [(hmask5 (2 * m) (by omega)).1, decide_eq_true_eq]
        omega
      · rw [(hmask5 (2 * m) (by omega)).2, show (2 * m + 1) / 2 = m by omega]
        exact hxb
  · subst hm
    rw [(index_of_64_bits x y m hx hy).2]
    apply bool_eq_of_iff
    rw [bmi2_index_of_64, Nat.testBit_or, Bool.or_eq_true, pdep_testBit, pdep_testBit]
    constructor
    · rintro (⟨hk, hmb, hsb⟩ | ⟨hk, hmb, hsb⟩)
      · exfalso
        rw [(hmask5 (2 * m + 1) hk).1, decide_eq_true_eq] at hmb
        omega
      · rw [(hmaskA (2 * m + 1) hk).2, show (2 * m + 1) / 2 = m by omega] at hsb
        exact hsb
    · intro hyb
      have hm32 : m < 32 := by
        by_contra hge
        rw [testBit_false_of_lt hy (by omega)] at hyb
        exact Bool.false_ne_true hyb
      refine Or.inr ⟨by omega, ?_, ?_⟩
      · rw [(hmaskA (2 * m + 1) (by omega)).1, decide_eq_true_eq]
        omega
      · rw [(hmaskA (2 * m + 1) (by omega)).2, show (2 * m + 1) / 2 = m by omega]
        exact hyb

theorem bmi2_coord_of_64_eq (idx : Nat) (hidx : idx < 2 ^ 64) :
    bmi2_coord_of_64 idx = coord_of_64 idx := by
  have hnth5 : ∀ j, j < 64 →
      nthSet 0x5555555555555555 64 j = if j < 32 then [2 * j] else [] := by decide
  have hnthA : ∀ j, j < 64 →
      nthSet 0xAAAAAAAAAAAAAAAA 64 j = if j < 32 then [2 * j + 1] else [] := by decide
  rw [coord_of_64_eq_gather idx hidx, bmi2_coord_of_64, Prod.mk.injEq]
  constructor
  · apply Nat.eq_of_testBit_eq
    intro j
    apply bool_eq_of_iff
    rw [Nat.testBit_mod_two_pow, Bool.and_eq_true, decide_eq_true_eq, pext_testBit,
      gatherBits_testBit]
    constructor
    · rintro ⟨hj32, hany⟩
      rw [hnth5 j (by omega), if_pos hj32, List.any_cons, List.any_nil, Bool.or_false] at hany
      exact ⟨hj32, by rwa [show 0 + j * 2 = 2 * j by omega]⟩
    · rintro ⟨hj32, hb⟩
      refine ⟨hj32, ?_⟩
      rw [hnth5 j (by omega), if_pos hj32, List.any_cons, List.any_nil, Bool.or_false]
      rwa [show 0 + j * 2 = 2 * j by omega] at hb
  · apply Nat.eq_of_testBit_eq
    intro j
    apply bool_eq_of_iff
    rw [Nat.testBit_mod_two_pow, Bool.and_eq_true, decide_eq_true_eq, pext_testBit,
      gatherBits_testBit]
    constructor
    · rintro ⟨hj32, hany⟩
      rw [hnthA j (by omega), if_pos hj32, List.any_cons, List.any_nil, Bool.or_false] at hany
      exact ⟨hj32, by rwa [show 1 + j * 2 = 2 * j + 1 by omega]⟩
    · rintro ⟨hj32, hb⟩
      refine ⟨hj32, ?_⟩
      rw [hnthA j (by omega), if_pos hj32, List.any_cons, List.any_nil, Bool.or_false]
      rwa [show 1 + j * 2 = 2 * j + 1 by omega] at hb

/-- Full characterization of `deinterleave`: output bit `j` is input bit
`lsb + j·N`, for `j` within the output width. -/
theorem deinterleave_testBit (B N wOut lsb v : Nat) (hw : 2 ^ BITS_ILOG2 wOut = wOut)
    (hN : 2 ≤ N) (hwB : wOut ≤ B) (hv : v < 2 ^ B) (j : Nat) :
    ((deinterleave B N wOut v lsb).testBit j = true ↔
      (j < wOut ∧ v.testBit (lsb + j * N) = true)) := by
  have hN0 : 0 < N := by omega
  have hwpos : 0 < wOut := by
    rw [← hw]
    exact Nat.pos_pow_of_pos _ (by norm_num)
  have hBpos : 0 < B := by omega
  have hM : 0 < N * wOut := Nat.mul_pos hN0 hwpos
  have hQc1 : 1 ≤ (B + N * wOut - 1) / (N * wOut) := by
    have h := Nat.div_add_mod (B + N * wOut - 1) (N * wOut)
    have hmod := Nat.mod_lt (B + N * wOut - 1) hM
    by_contra hlt
    push_neg at hlt
    interval_cases ((B + N * wOut - 1) / (N * wOut))
    omega
  have hcov : B ≤ ((B + N * wOut - 1) / (N * wOut)) * wOut * N := by
    have h := Nat.div_add_mod (B + N * wOut - 1) (N * wOut)
    have hmod := Nat.mod_lt (B + N * wOut - 1) hM
    have hcomm : (B + N * wOut - 1) / (N * wOut) * wOut * N =
        N * wOut * ((B + N * wOut - 1) / (N * wOut)) := by ring
    omega
  have ht : ∀ j', B ≤ j' * N →
      (gatherBits N lsb v ((B + N * wOut - 1) / (N * wOut) * wOut)).testBit j' = false := by
    intro j' hj'
    cases hbit : (gatherBits N lsb v ((B + N * wOut - 1) / (N * wOut) * wOut)).testBit j' with
    | false => rfl
    | true =>
      exfalso
      obtain ⟨-, hvb⟩ := (gatherBits_testBit N lsb v _ j').mp hbit
      rw [testBit_false_of_lt hv (by omega)] at hvb
      exact Bool.false_ne_true hvb
  have hinit := deinterleave_init B N lsb v ((B + N * wOut - 1) / (N * wOut) * wOut)
    hN hBpos (by omega) hv
  have hmain := dilvLoop_gather N B hN (BITS_ILOG2 wOut) 0
    ((B + N * wOut - 1) / (N * wOut))
    (gatherBits N lsb v ((B + N * wOut - 1) / (N * wOut) * wOut))
    (by rw [Nat.zero_add, hw]; omega) ht
  rw [Nat.zero_add, hw, pow_zero] at hmain
  have hfin : deinterleave B N wOut v lsb =
      spreadChunks N wOut ((B + N * wOut - 1) / (N * wOut))
        (gatherBits N lsb v ((B + N * wOut - 1) / (N * wOut) * wOut)) % 2 ^ wOut := by
    rw [deinterleave, hinit, hmain]
  rw [hfin, spreadChunks_mod N wOut _ _ hwpos hN0 hQc1, Nat.testBit_mod_two_pow,
    Bool.and_eq_true, decide_eq_true_eq, gatherBits_testBit]
  constructor
  · rintro ⟨hj, -, hb⟩
    exact ⟨hj, hb⟩
  · rintro ⟨hj, hb⟩
    refine ⟨hj, ?_, hb⟩
    calc j < wOut := hj
      _ = 1 * wOut := by omega
      _ ≤ (B + N * wOut - 1) / (N * wOut) * wOut := Nat.mul_le_mul_right wOut hQc1

/-! ### The output-type resolution tables

`interleaveOutputTable` lists `(input width, N, output width)` for every
`InterleaveOutput` impl (src/interleave.rs:59-86); `deinterleaveOutputTable`
lists `(input width, N, output width)` for every `DeinterleaveOutput` impl
(src/deinterleave.rs:59-86). -/

def interleaveOutputTable : List (Nat × Nat × Nat) :=
  [(8, 2, 16), (8, 3, 32), (8, 4, 32), (8, 5, 64), (8, 6, 64), (8, 7, 64), (8, 8, 64),
   (8, 9, 128), (8, 10, 128), (8, 11, 128), (8, 12, 128), (8, 13, 128), (8, 14, 128),
   (8, 15, 128), (8, 16, 128),
   (16, 2, 32), (16, 3, 64), (16, 4, 64), (16, 5, 128), (16, 6, 128), (16, 7, 128),
   (16, 8, 128),
   (32, 2, 64), (32, 3, 128), (32, 4, 128),
   (64, 2, 128)]

def deinterleaveOutputTable : List (Nat × Nat × Nat) :=
  [(16, 2, 8),
   (32, 2, 16), (32, 3, 8), (32, 4, 8),
   (64, 2, 32), (64, 3, 16), (64, 4, 16), (64, 5, 8), (64, 6, 8), (64, 7, 8), (64, 8, 8),
   (128, 2, 64), (128, 3, 32), (128, 4, 32), (128, 5, 16), (128, 6, 16), (128, 7, 16),
   (128, 8, 16), (128, 9, 8), (128, 10, 8), (128, 11, 8), (128, 12, 8), (128, 13, 8),
   (128, 14, 8), (128, 15, 8), (128, 16, 8)]

/-- The set of supported unsigned widths (src/mask.rs `BitCount` impls). -/
def supportedWidths : List Nat := [8, 16, 32, 64, 128]

/-! ### `DimMask<N> for u8` (src/lib.rs:316-333) with the `Mask` constants of
src/lib.rs:182-219, truncated `as` the output type. -/

def dimMask_u8_2 (v : Nat) : Nat :=
  let x1 := (v ||| ((v <<< 4) % 2 ^ 16)) &&& 0x0F0F
  let x2 := (x1 ||| ((x1 <<< 2) % 2 ^ 16)) &&& 0x3333
  (x2 ||| ((x2 <<< 1) % 2 ^ 16)) &&& 0x5555

def dimMask_u8_3 (v : Nat) : Nat :=
  let x1 := (v ||| ((v <<< 8) % 2 ^ 32)) &&& 0x0F00F00F
  let x2 := (x1 ||| ((x1 <<< 4) % 2 ^ 32)) &&& 0xC30C30C3
  (x2 ||| ((x2 <<< 2) % 2 ^ 32)) &&& 0x49249249

def dimMask_u8_4 (v : Nat) : Nat :=
  let x1 := (v ||| ((v <<< 12) % 2 ^ 32)) &&& 0x000F000F
  let x2 := (x1 ||| ((x1 <<< 6) % 2 ^ 32)) &&& 0x03030303
  (x2 ||| ((x2 <<< 3) % 2 ^ 32)) &&& 0x11111111

theorem dimMask_u8_2_eq (v : Nat) : dimMask_u8_2 v = interleave 8 2 16 v := by
  rw [interleave, show BITS_ILOG2 8 = 3 by decide]
  simp only [ilvLoop, dimMask_u8_2]
  rw [show interleave_shift 2 2 = 4 by decide, show interleave_shift 1 2 = 2 by decide,
    show interleave_shift 0 2 = 1 by decide,
    show interleave_mask 16 2 (1 <<< 2) = 0x0F0F by decide,
    show interleave_mask 16 2 (1 <<< 1) = 0x3333 by decide,
    show interleave_mask 16 2 (1 <<< 0) = 0x5555 by decide]

theorem dimMask_u8_3_eq (v : Nat) : dimMask_u8_3 v = interleave 8 3 32 v := by
  rw [interleave, show BITS_ILOG2 8 = 3 by decide]
  simp only [ilvLoop, dimMask_u8_3]
  rw [show interleave_shift 2 3 = 8 by decide, show interleave_shift 1 3 = 4 by decide,
    show interleave_shift 0 3 = 2 by decide,
    show interleave_mask 32 3 (1 <<< 2) = 0x0F00F00F by decide,
    show interleave_mask 32 3 (1 <<< 1) = 0xC30C30C3 by decide,
    show interleave_mask 32 3 (1 <<< 0) = 0x49249249 by decide]

theorem dimMask_u8_4_eq (v : Nat) : dimMask_u8_4 v = interleave 8 4 32 v := by
  rw [interleave, show BITS_ILOG2 8 = 3 by decide]
  simp only [ilvLoop, dimMask_u8_4]
  rw [show interleave_shift 2 4 = 12 by decide, show interleave_shift 1 4 = 6 by decide,
    show interleave_shift 0 4 = 3 by decide,
    show interleave_mask 32 4 (1 <<< 2) = 0x000F000F by decide,
    show interleave_mask 32 4 (1 <<< 1) = 0x03030303 by decide,
    show interleave_mask 32 4 (1 <<< 0) = 0x11111111 by decide]

/-! ### Array-level encode (src/lib.rs:408-420) and decode -/

/-- `array_index_of` (src/lib.rs:408-420) over `Nat`: interleave each
coordinate, then `fold(Output::zero(), |acc, (i, n)| acc |
n.unsigned_shl(i))` over the enumerated results; `unsigned_shl` wraps
modulo `2 ^ B`. -/
def array_index_of (w N B : Nat) (coords : List Nat) : Nat :=
  ((coords.map (interleave w N B)).enum).foldl
    (fun acc p => acc ||| ((p.2 <<< p.1) % 2 ^ B)) 0

/-- Modelled from the spec: the array-level decode of §4.4, axis `i` of the
decoded tuple being `deinterleave(index, lsb = i)` for `i = 0 .. N − 1`; the
array-decode wrapper visible in the crate's examples is not among the source
files, only `Deinterleave::deinterleave` is. -/
def array_coord_of (B N wOut : Nat) (idx : Nat) : List Nat :=
  (List.range N).map (fun lsb => deinterleave B N wOut idx lsb)

theorem deinterleave_lt (B N wOut v lsb : Nat) :
    deinterleave B N wOut v lsb < 2 ^ wOut := by
  rw [deinterleave]
  exact Nat.mod_lt _ (Nat.pos_pow_of_pos _ (by norm_num))

theorem shiftLeft_mod_testBit (B x n k : Nat) :
    (((x <<< n) % 2 ^ B).testBit k = true ↔ (k < B ∧ n ≤ k ∧ x.testBit (k - n) = true)) := by
  rw [Nat.testBit_mod_two_pow, Bool.and_eq_true, decide_eq_true_eq, Nat.testBit_shiftLeft,
    Bool.and_eq_true, decide_eq_true_eq]

theorem foldl_or_mod_lt {α : Type} (B : Nat) (g : α → Nat) (l : List α) :
    ∀ a, a < 2 ^ B → (l.foldl (fun acc i => acc ||| (g i % 2 ^ B)) a) < 2 ^ B := by
  induction l with
  | nil => intro a ha; simpa using ha
  | cons x xs ih =>
    intro a ha
    simp only [List.foldl_cons]
    exact ih _ (or_lt_two_pow ha (Nat.mod_lt _ (Nat.pos_pow_of_pos _ (by norm_num))))

theorem lt_two_pow_of_high_false {x B : Nat} (h : ∀ k, B ≤ k → x.testBit k = false) :
    x < 2 ^ B := by
  have hx : x = x % 2 ^ B := by
    apply Nat.eq_of_testBit_eq
    intro k
    rw [Nat.testBit_mod_two_pow]
    by_cases hk : k < B
    · simp [hk]
    · rw [h k (by omega)]
      simp
  rw [hx]
  exact Nat.mod_lt _ (Nat.pos_pow_of_pos _ (by norm_num))

theorem getD_map {f : Nat → Nat} (l : List Nat) (i : Nat) (h : i < l.length) :
    (l.map f).getD i 0 = f (l.getD i 0) := by
  have hl : i < (l.map f).length := by rw [List.length_map]; exact h
  rw [List.getD_eq_get _ 0 hl, List.get_map, List.getD_eq_get l 0 h]

theorem getD_map_range {f : Nat → Nat} (N i : Nat) (h : i < N) :
    ((List.range N).map f).getD i 0 = f i := by
  have hl : i < ((List.range N).map f).length := by
    rw [List.length_map, List.length_range]; exact h
  rw [List.getD_eq_get _ 0 hl, List.get_map, List.get_range]

theorem getD_mem {l : List Nat} {i : Nat} (h : i < l.length) : l.getD i 0 ∈ l := by
  rw [List.getD_eq_get l 0 h]
  exact List.get_mem l i h

/-- Bit structure of the encode fold: a bit of the accumulator survives, or
some list element contributes one of its bits shifted up by its position. -/
theorem encodeFold_testBit (B : Nat) (l : List Nat) :
    ∀ (n a k : Nat),
      (((List.enumFrom n l).foldl (fun acc p => acc ||| ((p.2 <<< p.1) % 2 ^ B)) a).testBit k
          = true ↔
        (a.testBit k = true ∨ ∃ i, i < l.length ∧ k < B ∧ n + i ≤ k ∧
          (l.getD i 0).testBit (k - (n + i)) = true)) := by
  induction l with
  | nil =>
    intro n a k
    simp [List.enumFrom]
  | cons x xs ih =>
    intro n a k
    simp only [List.enumFrom, List.foldl_cons]
    rw [ih (n + 1) (a ||| ((x <<< n) % 2 ^ B)) k, Nat.testBit_or, Bool.or_eq_true,
      shiftLeft_mod_testBit]
    constructor
    · rintro ((h | ⟨hkB, hnk, hbit⟩) | ⟨i, hi, hkB, hni, hbit⟩)
      · exact Or.inl h
      · refine Or.inr ⟨0, by simp, hkB, by omega, ?_⟩
        rw [List.getD_cons_zero]
        simpa using hbit
      · have he : n + (i + 1) = n + 1 + i := by omega
        refine Or.inr ⟨i + 1, by simpa using hi, hkB, by omega, ?_⟩
        rw [List.getD_cons_succ, he]
        exact hbit
    · rintro (h | ⟨i, hi, hkB, hni, hbit⟩)
      · exact Or.inl (Or.inl h)
      · match i with
        | 0 =>
          refine Or.inl (Or.inr ⟨hkB, by omega, ?_⟩)
          rw [List.getD_cons_zero] at hbit
          have he : k - (n + 0) = k - n := by omega
          rwa [he] at hbit
        | i + 1 =>
          have he : n + (i + 1) = n + 1 + i := by omega
          refine Or.inr ⟨i, by simpa using hi, hkB, by omega, ?_⟩
          rw [List.getD_cons_succ, he] at hbit
          exact hbit

/-- Bit characterization of `array_index_of`: bit `k` of the encoded index is
bit `k / N` of coordinate number `k % N`. -/
theorem array_index_of_testBit (w N B : Nat) (hw : 2 ^ BITS_ILOG2 w = w) (hN : 2 ≤ N)
    (hB : w * N ≤ B) (coords : List Nat) (hlen : coords.length = N)
    (hc : ∀ c ∈ coords, c < 2 ^ w) (k : Nat) :
    ((array_index_of w N B coords).testBit k = true ↔
      (k / N < w ∧ (coords.getD (k % N) 0).testBit (k / N) = true)) := by
  have hN0 : 0 < N := by omega
  have hwpos : 0 < w := by
    rw [← hw]; exact Nat.pos_pow_of_pos _ (by norm_num)
  have hmaplen : (List.map (interleave w N B) coords).length = N := by
    rw [List.length_map, hlen]
  have henum : (List.map (interleave w N B) coords).enum
      = List.enumFrom 0 (List.map (interleave w N B) coords) := rfl
  rw [array_index_of, henum,
    encodeFold_testBit B (List.map (interleave w N B) coords) 0 0 k]
  constructor
  · rintro (h | ⟨i, hi, hkB, hik, hbit⟩)
    · rw [Nat.zero_testBit] at h
      exact absurd h (by simp)
    · rw [hmaplen] at hi
      have hilen : i < coords.length := by omega
      rw [Nat.zero_add] at hik hbit
      rw [getD_map coords i hilen] at hbit
      have hlt : coords.getD i 0 < 2 ^ w := hc _ (getD_mem hilen)
      rw [interleave_testBit w N B _ _ hw hN hB hlt] at hbit
      obtain ⟨hmod, hdiv, hbit⟩ := hbit
      obtain ⟨m, hm⟩ := Nat.dvd_of_mod_eq_zero hmod
      have hk : k = i + N * m := by omega
      have hkm : k % N = i := by
        rw [hk, Nat.add_mul_mod_self_left, Nat.mod_eq_of_lt hi]
      have hkd : k / N = m := by
        rw [hk, Nat.add_mul_div_left i m hN0, Nat.div_eq_of_lt hi, Nat.zero_add]
      have hdm : (k - i) / N = m := by
        rw [hm, Nat.mul_div_cancel_left m hN0]
      rw [hdm] at hdiv hbit
      rw [hkm, hkd]
      exact ⟨hdiv, hbit⟩
  · rintro ⟨hdiv, hbit⟩
    have h1 := Nat.div_add_mod k N
    have hi : k % N < N := Nat.mod_lt k hN0
    have hilen : k % N < coords.length := by omega
    have hkB : k < B := by
      have h2 : N * (k / N) ≤ N * (w - 1) := Nat.mul_le_mul_left N (by omega)
      have h3 : N * (w - 1) + N = w * N := by
        have hw1 : w - 1 + 1 = w := by omega
        calc N * (w - 1) + N = N * (w - 1 + 1) := by ring
          _ = w * N := by rw [hw1]; ring
      omega
    refine Or.inr ⟨k % N, ?_, hkB, by omega, ?_⟩
    · rw [hmaplen]; exact hi
    · rw [getD_map coords (k % N) hilen,
        interleave_testBit w N B _ _ hw hN hB (hc _ (getD_mem hilen))]
      have hsub : k - (0 + k % N) = N * (k / N) := by omega
      rw [hsub, Nat.mul_div_cancel_left _ hN0]
      exact ⟨Nat.mul_mod_right N (k / N), hdiv, hbit⟩

/-- Array-level round trip: decoding the encoded coordinate list returns it. -/
theorem array_round_trip (w N B : Nat) (hw : 2 ^ BITS_ILOG2 w = w) (hN : 2 ≤ N)
    (hB : w * N ≤ B) (coords : List Nat) (hlen : coords.length = N)
    (hc : ∀ c ∈ coords, c < 2 ^ w) :
    array_coord_of B N w (array_index_of w N B coords) = coords := by
  have hN0 : 0 < N := by omega
  have hwB : w ≤ B := le_trans (Nat.le_mul_of_pos_right w hN0) hB
  have henc_lt : array_index_of w N B coords < 2 ^ B := by
    rw [array_index_of]
    exact foldl_or_mod_lt B (fun p : Nat × Nat => p.2 <<< p.1) _ 0
      (Nat.pos_pow_of_pos _ (by norm_num))
  apply List.ext_get
  · rw [array_coord_of, List.length_map, List.length_range, hlen]
  · intro i h1 h2
    have hiN : i < N := by
      have hcopy := h1
      rw [array_coord_of, List.length_map, List.length_range] at hcopy
      exact hcopy
    rw [← List.getD_eq_get (array_coord_of B N w (array_index_of w N B coords)) 0 h1,
      ← List.getD_eq_get coords 0 h2, array_coord_of, getD_map_range N i hiN]
    apply Nat.eq_of_testBit_eq
    intro j
    apply bool_eq_of_iff
    rw [deinterleave_testBit B N w i _ hw hN hwB henc_lt j,
      array_index_of_testBit w N B hw hN hB coords hlen hc (i + j * N)]
    have hkm : (i + j * N) % N = i := by
      rw [Nat.add_mul_mod_self_right, Nat.mod_eq_of_lt hiN]
    have hkd : (i + j * N) / N = j := by
      rw [Nat.add_mul_div_right i j hN0, Nat.div_eq_of_lt hiN, Nat.zero_add]
    rw [hkm, hkd]
    constructor
    · rintro ⟨hj, -, hb⟩
      exact hb
    · intro hb
      have hjw : j < w := by
        by_contra hge
        push_neg at hge
        rw [testBit_false_of_lt (hc _ (getD_mem h2)) hge] at hb
        exact Bool.false_ne_true hb
      exact ⟨hjw, hjw, hb⟩

/-- Array-level inverse consistency: encoding the decoded tuple of an index
whose high bits beyond `N·w` are clear returns the index. -/
theorem array_inverse (w N B : Nat) (hw : 2 ^ BITS_ILOG2 w = w) (hN : 2 ≤ N)
    (hB : w * N ≤ B) (idx : Nat) (hidx : idx < 2 ^ (N * w)) :
    array_index_of w N B (array_coord_of B N w idx) = idx := by
  have hN0 : 0 < N := by omega
  have hwB : w ≤ B := le_trans (Nat.le_mul_of_pos_right w hN0) hB
  have hNwB : N * w ≤ B := by
    have hcomm : N * w = w * N := by ring
    omega
  have hidxB : idx < 2 ^ B :=
    lt_of_lt_of_le hidx (Nat.pow_le_pow_right (by norm_num) hNwB)
  have hlen : (array_coord_of B N w idx).length = N := by
    rw [array_coord_of, List.length_map, List.length_range]
  have hcbound : ∀ c ∈ array_coord_of B N w idx, c < 2 ^ w := by
    intro c hcmem
    rw [array_coord_of, List.mem_map] at hcmem
    obtain ⟨lsb, -, rfl⟩ := hcmem
    exact deinterleave_lt B N w idx lsb
  apply Nat.eq_of_testBit_eq
  intro k
  apply bool_eq_of_iff
  rw [array_index_of_testBit w N B hw hN hB _ hlen hcbound k, array_coord_of,
    getD_map_range N (k % N) (Nat.mod_lt k hN0),
    deinterleave_testBit B N w (k % N) idx hw hN hwB hidxB (k / N)]
  have h1 := Nat.mod_add_div k N
  have hk : k % N + k / N * N = k := by
    have h2 : k / N * N = N * (k / N) := by ring
    omega
  rw [hk]
  constructor
  · rintro ⟨hj, -, hb⟩
    exact hb
  · intro hb
    have hjw : k / N < w := by
      by_contra hge
      push_neg at hge
      have h2 : N * w ≤ N * (k / N) := Nat.mul_le_mul_left N hge
      rw [testBit_false_of_lt hidx (by omega)] at hb
      exact Bool.false_ne_true hb
    exact ⟨hjw, hjw, hb⟩

/-- Every `InterleaveOutput` entry satisfies the side conditions of the
interleave characterization: the input width is a power of two, `N ≥ 2`, and
the output width holds `N` input-width chunks. -/
theorem interleaveTable_conditions :
    ∀ p ∈ interleaveOutputTable,
      2 ^ BITS_ILOG2 p.1 = p.1 ∧ 2 ≤ p.2.1 ∧ p.1 * p.2.1 ≤ p.2.2 := by decide

/-- Every `DeinterleaveOutput` entry satisfies the side conditions of the
deinterleave characterization. -/
theorem deinterleaveTable_conditions :
    ∀ p ∈ deinterleaveOutputTable,
      2 ^ BITS_ILOG2 p.2.2 = p.2.2 ∧ 2 ≤ p.2.1 ∧ p.2.2 ≤ p.1 := by decide

theorem interleave_mask_lt (B dim bits : Nat) : interleave_mask B dim bits < 2 ^ B := by
  rw [interleave_mask]
  exact foldl_or_mod_lt B (fun i => mask B bits <<< (i * dim * bits)) _ 0
    (Nat.pos_pow_of_pos _ (by norm_num))

/-- Modelled from the spec: the mask shape §4.2 and the testing section
describe — exactly `ceil(B / (dim·bits))` runs of `bits` set bits each, the
first at bit 0, spaced `dim·bits` apart, with no truncation of the final run
at the type width. -/
def specMaskFullRuns (B dim bits : Nat) : Nat :=
  (List.range ((B + dim * bits - 1) / (dim * bits))).foldl
    (fun acc k => acc ||| ((2 ^ bits - 1) <<< (k * (dim * bits)))) 0

/-- Dimensions implemented by `InterleaveOutput` never exceed 16. -/
theorem interleaveTable_dim_le : ∀ p ∈ interleaveOutputTable, p.2.1 ≤ 16 := by decide

/-- The supported widths all lie between 8 and 128. -/
theorem supportedWidths_range : ∀ W ∈ supportedWidths, 8 ≤ W ∧ W ≤ 128 := by decide

/-- `2 ^ w ≤ 2 ^ B` for every `(w, N, B)` entry of the interleave table. -/
theorem interleaveTable_pow_le : ∀ p ∈ interleaveOutputTable, 2 ^ p.1 ≤ 2 ^ p.2.2 := by
  decide

/-! ### The claims -/

/-- C1: round trip — for every `(w, N, B)` triple implemented by
`InterleaveOutput` and every list of `N` coordinates below `2 ^ w`, the
array-level decode of the array-level encode returns the coordinates;
concretely `coord_of (index_of (x, y)) = (x, y)` for 16-bit pairs and
`coord_of_64 (index_of_64 (x, y)) = (x, y)` for 32-bit pairs. -/
theorem claim_C1 :
    (∀ p ∈ interleaveOutputTable, ∀ coords : List Nat, coords.length = p.2.1 →
      (∀ c ∈ coords, c < 2 ^ p.1) →
      array_coord_of p.2.2 p.2.1 p.1 (array_index_of p.1 p.2.1 p.2.2 coords) = coords) ∧
    (∀ x y : Nat, x < 2 ^ 16 → y < 2 ^ 16 → coord_of (index_of x y) = (x, y)) ∧
    (∀ x y : Nat, x < 2 ^ 32 → y < 2 ^ 32 → coord_of_64 (index_of_64 x y) = (x, y)) := by
  refine ⟨?_, coord_of_index_of, coord_of_64_index_of_64⟩
  intro p hp coords hlen hc
  obtain ⟨hw, hN, hB⟩ := interleaveTable_conditions p hp
  exact array_round_trip p.1 p.2.1 p.2.2 hw hN hB coords hlen hc

theorem claim_C1_witness :
    ((32, 2, 64) ∈ interleaveOutputTable ∧ ([3, 7] : List Nat).length = 2 ∧
      (∀ c ∈ ([3, 7] : List Nat), c < 2 ^ 32)) ∧
    array_coord_of 64 2 32 (array_index_of 32 2 64 [3, 7]) = [3, 7] ∧
    coord_of (index_of 1 1) = (1, 1) :=
  ⟨⟨by decide, by decide, by decide⟩,
    claim_C1.1 (32, 2, 64) (by decide) [3, 7] (by decide) (by decide),
    claim_C1.2.1 1 1 (by decide) (by decide)⟩

/-- C2: inverse consistency — for every `(w, N, B)` triple implemented by
`InterleaveOutput` and every index below `2 ^ (N·w)` (its high `B − N·w`
bits clear), encoding the decoded tuple returns the index; concretely
`index_of (coord_of i) = i` on 32-bit indices and
`index_of_64 (coord_of_64 i) = i` on 64-bit indices. -/
theorem claim_C2 :
    (∀ p ∈ interleaveOutputTable, ∀ idx : Nat, idx < 2 ^ (p.2.1 * p.1) →
      array_index_of p.1 p.2.1 p.2.2 (array_coord_of p.2.2 p.2.1 p.1 idx) = idx) ∧
    (∀ i : Nat, i < 2 ^ 32 → index_of (coord_of i).1 (coord_of i).2 = i) ∧
    (∀ i : Nat, i < 2 ^ 64 → index_of_64 (coord_of_64 i).1 (coord_of_64 i).2 = i) := by
  refine ⟨?_, index_of_coord_of, index_of_64_coord_of_64⟩
  intro p hp idx hidx
  obtain ⟨hw, hN, hB⟩ := interleaveTable_conditions p hp
  exact array_inverse p.1 p.2.1 p.2.2 hw hN hB idx hidx

theorem claim_C2_witness :
    ((32, 2, 64) ∈ interleaveOutputTable ∧ (47 : Nat) < 2 ^ (2 * 32)) ∧
    array_index_of 32 2 64 (array_coord_of 64 2 32 47) = 47 ∧
    index_of (coord_of 47).1 (coord_of 47).2 = 47 :=
  ⟨⟨by decide, by decide⟩,
    claim_C2.1 (32, 2, 64) (by decide) 47 (by decide),
    claim_C2.2.1 47 (by decide)⟩

/-- C3: cross-path equality — with `_pdep`/`_pext` modelled by their
bit-deposit/bit-extract semantics, the `bmi2` functions agree bit for bit
with the software path on every in-range input. -/
theorem claim_C3 :
    (∀ x y : Nat, x < 2 ^ 16 → y < 2 ^ 16 → bmi2_index_of x y = index_of x y) ∧
    (∀ idx : Nat, idx < 2 ^ 32 → bmi2_coord_of idx = coord_of idx) ∧
    (∀ x y : Nat, x < 2 ^ 32 → y < 2 ^ 32 → bmi2_index_of_64 x y = index_of_64 x y) ∧
    (∀ idx : Nat, idx < 2 ^ 64 → bmi2_coord_of_64 idx = coord_of_64 idx) :=
  ⟨bmi2_index_of_eq, bmi2_coord_of_eq, bmi2_index_of_64_eq, bmi2_coord_of_64_eq⟩

theorem claim_C3_witness :
    bmi2_index_of 3 7 = index_of 3 7 ∧ bmi2_coord_of 47 = coord_of 47 :=
  ⟨claim_C3.1 3 7 (by decide) (by decide), claim_C3.2.1 47 (by decide)⟩

/-- C4: interleave placement — for every `(w, N, B)` entry of the output
table and every input `v < 2 ^ w`, bit `k` of `interleave v` is set exactly
when `k = j·N` for some `j < w` with bit `j` of `v` set (bit `j` lands at
position `j·N`, every other bit is clear); in particular with `N = 3`,
`w = 8`, interleaving `0xFF` gives `0x249249`, and the `DimMask<N> for u8`
instances compute exactly `interleave`. -/
theorem claim_C4 :
    (∀ p ∈ interleaveOutputTable, ∀ v : Nat, v < 2 ^ p.1 → ∀ k : Nat,
      ((interleave p.1 p.2.1 p.2.2 v).testBit k = true ↔
        (k % p.2.1 = 0 ∧ k / p.2.1 < p.1 ∧ v.testBit (k / p.2.1) = true))) ∧
    interleave 8 3 32 0xFF = 0x249249 ∧
    (∀ v : Nat, dimMask_u8_2 v = interleave 8 2 16 v ∧
      dimMask_u8_3 v = interleave 8 3 32 v ∧ dimMask_u8_4 v = interleave 8 4 32 v) := by
  refine ⟨?_, by decide, fun v => ⟨dimMask_u8_2_eq v, dimMask_u8_3_eq v, dimMask_u8_4_eq v⟩⟩
  intro p hp v hv k
  obtain ⟨hw, hN, hB⟩ := interleaveTable_conditions p hp
  exact interleave_testBit p.1 p.2.1 p.2.2 v k hw hN hB hv

theorem claim_C4_witness :
    ((8, 3, 32) ∈ interleaveOutputTable ∧ (255 : Nat) < 2 ^ 8) ∧
    ((interleave 8 3 32 255).testBit 3 = true ↔
      (3 % 3 = 0 ∧ 3 / 3 < 8 ∧ (255 : Nat).testBit (3 / 3) = true)) :=
  ⟨⟨by decide, by decide⟩, claim_C4.1 (8, 3, 32) (by decide) 255 (by decide) 3⟩

/-- C5: deinterleave extraction — for every `(B, N, w)` entry of the
deinterleave table, every offset `lsb < N` and every input `v < 2 ^ B`, bit
`j` of `deinterleave v lsb` equals bit `lsb + j·N` of `v` for every `j`
within the output width, and is clear beyond it: every `N`-th bit starting
at `lsb` is gathered into a contiguous low-order run. -/
theorem claim_C5 :
    ∀ p ∈ deinterleaveOutputTable, ∀ lsb : Nat, lsb < p.2.1 → ∀ v : Nat, v < 2 ^ p.1 →
      ∀ j : Nat, ((deinterleave p.1 p.2.1 p.2.2 v lsb).testBit j = true ↔
        (j < p.2.2 ∧ v.testBit (lsb + j * p.2.1) = true)) := by
  intro p hp lsb _ v hv j
  obtain ⟨hw, hN, hB⟩ := deinterleaveTable_conditions p hp
  exact deinterleave_testBit p.1 p.2.1 p.2.2 lsb v hw hN hB hv j

theorem claim_C5_witness :
    ((64, 2, 32) ∈ deinterleaveOutputTable ∧ (1 : Nat) < 2 ∧ (47 : Nat) < 2 ^ 64) ∧
    ((deinterleave 64 2 32 47 1).testBit 0 = true ↔
      (0 < 32 ∧ (47 : Nat).testBit (1 + 0 * 2) = true)) :=
  ⟨⟨by decide, by decide, by decide⟩,
    claim_C5 (64, 2, 32) (by decide) 1 (by decide) 47 (by decide) 0⟩

/-- C6 counterexample: on `u8` with `dim = 2`, `bits = 3` the claimed shape
fails — `ceil(8 / 6) = 2` full runs of 3 bits spaced 6 apart would give
`0x1C7`, but `interleave_mask` truncates the second run at the 8-bit type
width and returns `0xC7`: the claim as stated is false at this input. -/
theorem claim_C6_counterexample :
    interleave_mask 8 2 3 = 0xC7 ∧ specMaskFullRuns 8 2 3 = 0x1C7 ∧
      interleave_mask 8 2 3 ≠ specMaskFullRuns 8 2 3 := by decide

/-- C6 (amended): on a `B`-bit type with `dim ≥ 1` and `0 < bits ≤ B`,
`interleave_mask(dim, bits)` sets bit `k` iff `k < B` and
`k % (dim·bits) < bits`: runs of `bits` set bits starting at the multiples
of `dim·bits`, all other bits clear, the last of the
`ceil(B / (dim·bits))` runs truncated at the type width (the loop count of
the source, `ceil(ceil(B / dim) / bits)`, equals `ceil(B / (dim·bits))`). -/
theorem claim_C6 (B dim bits : Nat) (hb : 0 < bits) (hbB : bits ≤ B) (hd : 0 < dim) :
    (∀ k, ((interleave_mask B dim bits).testBit k = true ↔
      (k < B ∧ k % (dim * bits) < bits))) ∧
    ((B + dim - 1) / dim + bits - 1) / bits = (B + dim * bits - 1) / (dim * bits) :=
  ⟨fun k => interleave_mask_testBit B dim bits k hb hbB hd,
    ceil_div_ceil_div B dim bits hd hb (by omega)⟩

theorem claim_C6_witness :
    (0 < 3 ∧ 3 ≤ 8 ∧ 0 < 2) ∧
    ((interleave_mask 8 2 3).testBit 7 = true ↔ (7 < 8 ∧ 7 % (2 * 3) < 3)) ∧
    ((8 + 2 - 1) / 2 + 3 - 1) / 3 = (8 + 2 * 3 - 1) / (2 * 3) :=
  ⟨⟨by decide, by decide, by decide⟩,
    (claim_C6 8 2 3 (by decide) (by decide) (by decide)).1 7,
    (claim_C6 8 2 3 (by decide) (by decide) (by decide)).2⟩

/-- C7: output-type resolution — every table entry resolves to the smallest
supported width at least `N·w`; the deinterleave table is exactly the
inverse of the interleave table; and for `N ≥ 2` a pair `(w, N)` is
implemented precisely when some supported width is at least `N·w` (so the
remaining combinations have no impl and are rejected at type-check time). -/
theorem claim_C7 :
    (∀ p ∈ interleaveOutputTable,
      p.2.2 ∈ supportedWidths ∧ p.1 * p.2.1 ≤ p.2.2 ∧
        ∀ W ∈ supportedWidths, p.1 * p.2.1 ≤ W → p.2.2 ≤ W) ∧
    (∀ p ∈ interleaveOutputTable, (p.2.2, p.2.1, p.1) ∈ deinterleaveOutputTable) ∧
    (∀ p ∈ deinterleaveOutputTable, (p.2.2, p.2.1, p.1) ∈ interleaveOutputTable) ∧
    (∀ w ∈ supportedWidths, ∀ N : Nat, 2 ≤ N →
      ((w, N) ∈ interleaveOutputTable.map (fun p => (p.1, p.2.1)) ↔
        ∃ W ∈ supportedWidths, N * w ≤ W)) := by
  refine ⟨by decide, by decide, by decide, ?_⟩
  intro w hw N hN
  by_cases hN16 : N ≤ 16
  · fin_cases hw <;> interval_cases N <;> decide
  · push_neg at hN16
    constructor
    · intro hmem
      exfalso
      rw [List.mem_map] at hmem
      obtain ⟨p, hp, hpe⟩ := hmem
      have h16 := interleaveTable_dim_le p hp
      simp only [Prod.mk.injEq] at hpe
      omega
    · rintro ⟨W, hW, hle⟩
      exfalso
      obtain ⟨hW8, hW128⟩ := supportedWidths_range W hW
      obtain ⟨hw8, -⟩ := supportedWidths_range w hw
      have hmul : 17 * 8 ≤ N * w := Nat.mul_le_mul (by omega) hw8
      omega

theorem claim_C7_witness :
    ((8, 3, 32) ∈ interleaveOutputTable ∧ (8 ∈ supportedWidths ∧ 2 ≤ 3)) ∧
    (32, 3, 8) ∈ deinterleaveOutputTable ∧
    ((8, 3) ∈ interleaveOutputTable.map (fun p => (p.1, p.2.1)) ↔
      ∃ W ∈ supportedWidths, 3 * 8 ≤ W) :=
  ⟨⟨by decide, by decide, by decide⟩,
    claim_C7.2.1 (8, 3, 32) (by decide),
    claim_C7.2.2.2 8 (by decide) 3 (by decide)⟩

/-- C8: totality — at every doubling stage of every implemented pair the
shift distance stays below the output bit width (no overflowing shift), the
widening `num_cast` is value-preserving (its unchecked unwrap cannot fail),
the array-fold shift amounts `i < N` stay below the output width, every
`interleave_mask` fits its type, and the array-level encode always returns
a value below `2 ^ B`. -/
theorem claim_C8 :
    (∀ p ∈ interleaveOutputTable, ∀ L : Nat, L < BITS_ILOG2 p.1 →
      interleave_shift L p.2.1 < p.2.2) ∧
    (∀ p ∈ deinterleaveOutputTable, ∀ i : Nat, i < BITS_ILOG2 p.2.2 →
      deinterleave_shift p.2.1 i < p.1) ∧
    (∀ p ∈ interleaveOutputTable, ∀ v : Nat, v < 2 ^ p.1 → v < 2 ^ p.2.2) ∧
    (∀ p ∈ interleaveOutputTable, ∀ i : Nat, i < p.2.1 → i < p.2.2) ∧
    (∀ B dim bits : Nat, interleave_mask B dim bits < 2 ^ B) ∧
    (∀ p ∈ interleaveOutputTable, ∀ coords : List Nat,
      array_index_of p.1 p.2.1 p.2.2 coords < 2 ^ p.2.2) := by
  refine ⟨by decide, by decide, ?_, by decide, interleave_mask_lt, ?_⟩
  · intro p hp v hv
    have h := interleaveTable_pow_le p hp
    omega
  · intro p hp coords
    rw [array_index_of]
    exact foldl_or_mod_lt _ (fun q : Nat × Nat => q.2 <<< q.1) _ 0
      (Nat.pos_pow_of_pos _ (by norm_num))

theorem claim_C8_witness :
    ((8, 3, 32) ∈ interleaveOutputTable ∧ 2 < BITS_ILOG2 8 ∧
      interleave_shift 2 3 < 32) ∧ ((255 : Nat) < 2 ^ 8 ∧ (255 : Nat) < 2 ^ 32) :=
  ⟨⟨by decide, by decide, claim_C8.1 (8, 3, 32) (by decide) 2 (by decide)⟩,
    ⟨by decide, claim_C8.2.2.1 (8, 3, 32) (by decide) 255 (by decide)⟩⟩

/-- C9: literal scenario — the array-level encode of `[3, 7]` with `N = 2`
(u32 coordinates, u64 index) is 47, and decoding 47 yields `[3, 7]`:
`deinterleave` at `lsb = 0` gives 3 and at `lsb = 1` gives 7. -/
theorem claim_C9 :
    array_index_of 32 2 64 [3, 7] = 47 ∧
    deinterleave 64 2 32 47 0 = 3 ∧ deinterleave 64 2 32 47 1 = 7 ∧
    array_coord_of 64 2 32 47 = [3, 7] := by decide

/-- C10: the dual-pass encoder does not match `index_of_64` — `single_pass`
omits the 16-bit doubling stage, so at `(x, y) = (65536, 0)` the dual-pass
path returns 65536 while `index_of_64` places bit 16 of `x` at bit 32 and
returns `2 ^ 32 = 4294967296`. -/
theorem claim_C10 :
    index_of_64 65536 0 = 4294967296 ∧ index_of_64_dual_pass 65536 0 = 65536 ∧
      index_of_64_dual_pass 65536 0 ≠ index_of_64 65536 0 := by decide

end Zorder
